import Mathlib

/-!
# Subdivision curve editor: `Skeleton.cpp`

A shallow embedding of the curve model of `Skeleton.cpp` (class `SubdivisionCurve`,
the `Camera` it reads and the event handlers that call it), followed by theorems
about it.

Modelling decisions, fixed once for the whole development:

* A `float` value is a rational number. The arithmetic comes twice. The operations of
  the first part (`subdivisionRound`, `InterpolateStep`, `worldVertex`, ...) compute
  exactly; the statements on sizes, indices, the order of the elements and the formulas
  are about these. The operations of the part on binary32 rounding
  (`subdivisionRoundR`, `InterpolateStepR`, `worldVertexR`, ...) round the result of
  every single operation; with `rnd = fl32` they are the arithmetic of the machine, and
  the statements on computed values (C14, C16, C17, C19) are about these.
* `std::vector<vec4>` is modelled by `List vec4`; `push_back` is `· ++ [·]`.
* Loop counters (`int`, `unsigned int`) are natural numbers: vectors long enough to
  overflow a 32-bit counter are outside the model. `size_t` subtraction wraps
  (`sizeSub`), which is what decides the behaviour on short vectors.
* `operator[]` of `std::vector` is unchecked. Every operation takes a parameter
  `oob : Option vec4` fixing how an out-of-range *read* is understood:
  `none` is the strict reading (the access is undefined behaviour, the operation has
  no result), `some v` is the reading under which the access yields whatever `vec4`
  value `v` the memory holds there. An out-of-range *write* has no result under either
  reading. An operation without result is `none`.
* OpenGL handles and draw calls are not modelled.
-/

namespace Skeleton

/-- Modelled from the spec: the `vec4` type of `framework.h`, which is not among the
sources; a homogeneous 4-vector of floats whose arithmetic is componentwise. -/
@[ext] structure vec4 where
  x : ℚ
  y : ℚ
  z : ℚ
  w : ℚ
deriving DecidableEq

namespace vec4

/-- Modelled from the spec: `vec4 + vec4` of `framework.h`, componentwise. -/
def add (a b : vec4) : vec4 := ⟨a.x + b.x, a.y + b.y, a.z + b.z, a.w + b.w⟩

/-- Modelled from the spec: `vec4 - vec4` of `framework.h`, componentwise. -/
def sub (a b : vec4) : vec4 := ⟨a.x - b.x, a.y - b.y, a.z - b.z, a.w - b.w⟩

/-- Modelled from the spec: `float * vec4` of `framework.h`, componentwise. -/
def smul (s : ℚ) (a : vec4) : vec4 := ⟨s * a.x, s * a.y, s * a.z, s * a.w⟩

/-- Modelled from the spec: `vec4 / float` of `framework.h`, componentwise. -/
def sdiv (a : vec4) (d : ℚ) : vec4 := ⟨a.x / d, a.y / d, a.z / d, a.w / d⟩

instance : Add vec4 := ⟨add⟩
instance : Sub vec4 := ⟨sub⟩
instance : HMul ℚ vec4 vec4 := ⟨smul⟩
instance : HDiv vec4 ℚ vec4 := ⟨sdiv⟩

end vec4

/-- Modelled from the spec: `dot(vec4, vec4)` of `framework.h`, the sum of the four
componentwise products. -/
def dot (a b : vec4) : ℚ := a.x * b.x + a.y * b.y + a.z * b.z + a.w * b.w

/-- Modelled from the spec: the `mat4` type of `framework.h`, four rows, filled
row by row by its 16-argument constructor. -/
structure mat4 where
  r0 : vec4
  r1 : vec4
  r2 : vec4
  r3 : vec4
deriving DecidableEq

/-- Modelled from the spec: `vec4 * mat4` of `framework.h`, the row vector times the
matrix. -/
def vec4.mulMat (v : vec4) (m : mat4) : vec4 :=
  v.x * m.r0 + v.y * m.r1 + v.z * m.r2 + v.w * m.r3

instance : HMul vec4 mat4 vec4 := ⟨vec4.mulMat⟩

/-- The 2D camera: centre and extent in world coordinates. -/
structure Camera where
  wCx : ℚ
  wCy : ℚ
  wWx : ℚ
  wWy : ℚ
deriving DecidableEq

namespace Camera

/-- View matrix: translates the centre to the origin. -/
def V (c : Camera) : mat4 :=
  ⟨⟨1, 0, 0, 0⟩, ⟨0, 1, 0, 0⟩, ⟨0, 0, 1, 0⟩, ⟨-c.wCx, -c.wCy, 0, 1⟩⟩

/-- Projection matrix: scales the window to a square of edge length 2. In `ℚ` the
quotient by a zero extent is 0, where the machine has an infinity: `Camera.PR`, the
matrix as computed, has no value there. -/
def P (c : Camera) : mat4 :=
  ⟨⟨2 / c.wWx, 0, 0, 0⟩, ⟨0, 2 / c.wWy, 0, 0⟩, ⟨0, 0, 1, 0⟩, ⟨0, 0, 0, 1⟩⟩

/-- Inverse view matrix. -/
def Vinv (c : Camera) : mat4 :=
  ⟨⟨1, 0, 0, 0⟩, ⟨0, 1, 0, 0⟩, ⟨0, 0, 1, 0⟩, ⟨c.wCx, c.wCy, 0, 1⟩⟩

/-- Inverse projection matrix. -/
def Pinv (c : Camera) : mat4 :=
  ⟨⟨c.wWx / 2, 0, 0, 0⟩, ⟨0, c.wWy / 2, 0, 0⟩, ⟨0, 0, 1, 0⟩, ⟨0, 0, 0, 1⟩⟩

/-- The body of `Animate`: whatever the time, centre (0,0) and extent 20 x 20. -/
def Animate (_c : Camera) (_t : ℚ) : Camera := ⟨0, 0, 20, 20⟩

end Camera

/-- The global `camera`: the constructor runs `Animate(0)` and nothing animates it
afterwards. -/
def camera : Camera := Camera.Animate ⟨0, 0, 0, 0⟩ 0

/-- The expression `vec4(cX, cY, 0, 1) * camera.Pinv() * camera.Vinv()` that starts
`AddControlPoint`, `PickControlPoint` and `MoveControlPoint`. -/
def worldVertex (cam : Camera) (cX cY : ℚ) : vec4 :=
  ((⟨cX, cY, 0, 1⟩ : vec4) * cam.Pinv) * cam.Vinv

/-- The three point vectors of `class SubdivisionCurve`. -/
structure SubdivisionCurve where
  wCurvePoints : List vec4
  OGCtrlPoints : List vec4
  InterpolateCtrlPoints : List vec4
deriving DecidableEq

/-- The freshly constructed curve: three empty vectors. -/
def SubdivisionCurve.empty : SubdivisionCurve := ⟨[], [], []⟩

/-- Unchecked `v[i]` used as a value: the element when `i` is in range, and otherwise
whatever the reading `oob` of out-of-range reads gives. -/
def rd (oob : Option vec4) (v : List vec4) (i : Nat) : Option vec4 :=
  match v[i]? with
  | some a => some a
  | none => oob

/-- The `size_t` difference `n - k` of a vector size `n` (sizes are below `2^64`): it
wraps around when `k` exceeds `n`. -/
def sizeSub (n k : Nat) : Nat :=
  if k ≤ n then n - k else 2 ^ 64 - (k - n)

/-- The loop `for (i = start; i < bound; ++i) body`, run for `fuel = bound - start`
iterations from counter `i` on state `s`; it has no result as soon as a body has none. -/
def forLoop {σ : Type} (body : Nat → σ → Option σ) : Nat → Nat → σ → Option σ
  | 0, _, s => some s
  | fuel + 1, i, s =>
    match body i s with
    | none => none
    | some s1 => forLoop body fuel (i + 1) s1

/-- Body of the first loop of `nextSubdivisionCalculate`: push the midpoint of
`S[i]` and `S[i+1]`. -/
def halfBody (oob : Option vec4) (S : List vec4) (i : Nat) (acc : List vec4) :
    Option (List vec4) :=
  match rd oob S i, rd oob S (i + 1) with
  | some a, some b => some (acc ++ [(a + b) / (2 : ℚ)])
  | _, _ => none

/-- Body of the second loop of `nextSubdivisionCalculate`: push the 1-6-1 average
around `S[i]`. -/
def newBody (oob : Option vec4) (S : List vec4) (i : Nat) (acc : List vec4) :
    Option (List vec4) :=
  match rd oob S (i - 1), rd oob S i, rd oob S (i + 1) with
  | some a, some b, some d => some (acc ++ [(a + (6 : ℚ) * b + d) / (8 : ℚ)])
  | _, _, _ => none

/-- Body of the third loop of `nextSubdivisionCalculate`: push `wHalfPoints[i]`, then
`wNewVertices[i]`. -/
def weaveBody (oob : Option vec4) (wHalfPoints wNewVertices : List vec4) (i : Nat)
    (acc : List vec4) : Option (List vec4) :=
  match rd oob wHalfPoints i, rd oob wNewVertices i with
  | some h, some v => some (acc ++ [h] ++ [v])
  | _, _ => none

/-- The body of `nextSubdivisionCalculate` as a function of the content `S` of
`wCurvePoints`: the content it leaves there. -/
def subdivisionRound (oob : Option vec4) (S : List vec4) : Option (List vec4) :=
  match forLoop (halfBody oob S) (sizeSub S.length 1 - 0) 0 [] with
  | none => none
  | some wHalfPoints =>
    match forLoop (newBody oob S) (sizeSub S.length 1 - 1) 1 [] with
    | none => none
    | some wNewVertices =>
      match forLoop (weaveBody oob wHalfPoints wNewVertices) (wNewVertices.length - 0) 0 [] with
      | none => none
      | some pts =>
        match rd oob wHalfPoints 0, rd oob wNewVertices 0 with
        | some h0, some v0 => some (pts ++ [h0] ++ [v0])
        | _, _ => none

/-- `nextSubdivisionCalculate()`: one round of subdivision on `wCurvePoints`; the other
two vectors are not touched. -/
def nextSubdivisionCalculate (oob : Option vec4) (c : SubdivisionCurve) :
    Option SubdivisionCurve :=
  match subdivisionRound oob c.wCurvePoints with
  | none => none
  | some R => some { c with wCurvePoints := R }

/-- The loop `for (int i = 0; i < 4; ++i) nextSubdivisionCalculate();`. -/
def subdivide4 (oob : Option vec4) (c : SubdivisionCurve) : Option SubdivisionCurve :=
  forLoop (fun _ s => nextSubdivisionCalculate oob s) (4 - 0) 0 c

/-- `AddControlPoint(cX, cY)`. -/
def AddControlPoint (oob : Option vec4) (cam : Camera) (c : SubdivisionCurve)
    (cX cY : ℚ) : Option SubdivisionCurve :=
  let size := c.OGCtrlPoints.length
  let wVertex := worldVertex cam cX cY
  let r : Option SubdivisionCurve :=
    if size ≥ 4 then
      let og := List.insertIdx (size - 2) wVertex c.OGCtrlPoints
      subdivide4 oob { c with OGCtrlPoints := og, wCurvePoints := og }
    else if size = 1 then
      let og1 := c.OGCtrlPoints ++ [wVertex]
      match rd oob og1 0 with
      | none => none
      | some first =>
        let og3 := og1 ++ [first] ++ [wVertex]
        some { c with OGCtrlPoints := og3, wCurvePoints := og3 }
    else
      some { c with OGCtrlPoints := c.OGCtrlPoints ++ [wVertex] }
  match r with
  | none => none
  | some c1 => some { c1 with InterpolateCtrlPoints := c1.OGCtrlPoints }

/-- Body of the first loop of `InterpolateStep`: push the 1-4-1 average around
`InterpolateCtrlPoints[i]`. -/
def limitBody (oob : Option vec4) (T : List vec4) (i : Nat) (acc : List vec4) :
    Option (List vec4) :=
  match rd oob T (i - 1), rd oob T i, rd oob T (i + 1) with
  | some a, some b, some d => some (acc ++ [(a + (4 : ℚ) * b + d) / (6 : ℚ)])
  | _, _, _ => none

/-- Body of the second loop of `InterpolateStep`:
`InterpolateCtrlPoints[i] += OGCtrlPoints[i] - verticesLimit[i]`; the element
assigned to has to exist, and `a += b`, an operator of `framework.h`, is taken to be
`a = a + b`. -/
def nudgeBody (oob : Option vec4) (OG verticesLimit : List vec4) (i : Nat)
    (T : List vec4) : Option (List vec4) :=
  match rd oob OG i, rd oob verticesLimit i, T[i]? with
  | some o, some l, some t => some (T.set i (t + (o - l)))
  | _, _, _ => none

/-- `InterpolateStep()`. -/
def InterpolateStep (oob : Option vec4) (c : SubdivisionCurve) : Option SubdivisionCurve :=
  let T := c.InterpolateCtrlPoints
  match forLoop (limitBody oob T) (T.length - 1) 1 [] with
  | none => none
  | some lim =>
    match rd oob lim (sizeSub lim.length 2) with
    | none => none
    | some front =>
      let verticesLimit := List.insertIdx 0 front lim
      match forLoop (nudgeBody oob c.OGCtrlPoints verticesLimit) (verticesLimit.length - 0) 0 T with
      | none => none
      | some T1 => subdivide4 oob { c with InterpolateCtrlPoints := T1, wCurvePoints := T1 }

/-- The scan of `PickControlPoint`, from counter `p` with `fuel = size - p` iterations
left: the first index whose point is closer than the threshold to `wVertex`, else `-1`. -/
def pickLoop (oob : Option vec4) (OG : List vec4) (wVertex : vec4) : Nat → Nat → Option Int
  | 0, _ => some (-1)
  | fuel + 1, p =>
    match rd oob OG p with
    | none => none
    | some v =>
      if dot (v - wVertex) (v - wVertex) < (1 / 2 : ℚ) then some (p : Int)
      else pickLoop oob OG wVertex fuel (p + 1)

/-- `PickControlPoint(cX, cY)`: the returned `int` and the curve after the call. -/
def PickControlPoint (oob : Option vec4) (cam : Camera) (c : SubdivisionCurve)
    (cX cY : ℚ) : Option (Int × SubdivisionCurve) :=
  let wVertex := worldVertex cam cX cY
  match pickLoop oob c.OGCtrlPoints wVertex (c.OGCtrlPoints.length - 0) 0 with
  | none => none
  | some r => some (r, c)

/-- `MoveControlPoint(p, cX, cY)`: the assignment `OGCtrlPoints[p] = wVertex` needs
the element to exist. -/
def MoveControlPoint (oob : Option vec4) (cam : Camera) (c : SubdivisionCurve)
    (p : Int) (cX cY : ℚ) : Option SubdivisionCurve :=
  let wVertex := worldVertex cam cX cY
  if 0 ≤ p ∧ p.toNat < c.OGCtrlPoints.length then
    let og := c.OGCtrlPoints.set p.toNat wVertex
    subdivide4 oob { c with OGCtrlPoints := og, wCurvePoints := og }
  else none

/-- A call of one of the three mutating operations of the curve, with its arguments. -/
inductive Call where
  | add (cX cY : ℚ)
  | move (p : Int) (cX cY : ℚ)
  | step
deriving DecidableEq

/-- Perform one call on the curve. -/
def Call.run (oob : Option vec4) (cam : Camera) (c : SubdivisionCurve) :
    Call → Option SubdivisionCurve
  | Call.add cX cY => AddControlPoint oob cam c cX cY
  | Call.move p cX cY => MoveControlPoint oob cam c p cX cY
  | Call.step => InterpolateStep oob c

/-- Perform a sequence of calls, first to last, from the curve `c`. -/
def runCalls (oob : Option vec4) (cam : Camera) : List Call → SubdivisionCurve →
    Option SubdivisionCurve
  | [], c => some c
  | e :: es, c =>
    match e.run oob cam c with
    | none => none
    | some c1 => runCalls oob cam es c1

/-- The vector `verticesLimit` as `InterpolateStep` has it when its second loop starts
(first loop, then the insertion at the front), as a function of the content `T` of
`InterpolateCtrlPoints`. -/
def verticesLimit (oob : Option vec4) (T : List vec4) : Option (List vec4) :=
  match forLoop (limitBody oob T) (T.length - 1) 1 [] with
  | none => none
  | some lim =>
    match rd oob lim (sizeSub lim.length 2) with
    | none => none
    | some front => some (List.insertIdx 0 front lim)

/-- The 4x4 identity matrix. -/
def mat4.identity : mat4 := ⟨⟨1, 0, 0, 0⟩, ⟨0, 1, 0, 0⟩, ⟨0, 0, 1, 0⟩, ⟨0, 0, 0, 1⟩⟩

/-- The mouse buttons GLUT reports. -/
inductive Button where
  | left
  | middle
  | right
deriving DecidableEq

/-- The button states GLUT reports. -/
inductive ButtonState where
  | down
  | up
deriving DecidableEq

/-- The globals the event handlers work on: the curve and `pickedControlPoint`. -/
structure Program where
  curve : SubdivisionCurve
  pickedControlPoint : Int
deriving DecidableEq

/-- The program after `onInitialization`: a fresh curve, `pickedControlPoint = -1`. -/
def Program.initial : Program := ⟨SubdivisionCurve.empty, -1⟩

/-- The device x coordinate `2.0f * pX / windowWidth - 1` of a pixel column; the
window size is a constant of `framework.h`, taken as a parameter. -/
def deviceX (windowWidth : Nat) (pX : Int) : ℚ := 2 * (pX : ℚ) / (windowWidth : ℚ) - 1

/-- The device y coordinate `1.0f - 2.0f * pY / windowHeight` of a pixel row. -/
def deviceY (windowHeight : Nat) (pY : Int) : ℚ := 1 - 2 * (pY : ℚ) / (windowHeight : ℚ)

/-- `onMouse(button, state, pX, pY)`: its three `if` statements in turn. -/
def onMouse (oob : Option vec4) (cam : Camera) (windowWidth windowHeight : Nat)
    (s : Program) (button : Button) (state : ButtonState) (pX pY : Int) : Option Program :=
  let cX := deviceX windowWidth pX
  let cY := deviceY windowHeight pY
  let r1 : Option Program :=
    if button = Button.left ∧ state = ButtonState.down then
      match AddControlPoint oob cam s.curve cX cY with
      | none => none
      | some c1 => some { s with curve := c1 }
    else some s
  match r1 with
  | none => none
  | some s1 =>
    let r2 : Option Program :=
      if button = Button.right ∧ state = ButtonState.down then
        match PickControlPoint oob cam s1.curve cX cY with
        | none => none
        | some (p, c1) => some { curve := c1, pickedControlPoint := p }
      else some s1
    match r2 with
    | none => none
    | some s2 =>
      if button = Button.right ∧ state = ButtonState.up then
        some { s2 with pickedControlPoint := -1 }
      else some s2

/-- `onMouseMotion(pX, pY)`: move the picked control point, if there is one. -/
def onMouseMotion (oob : Option vec4) (cam : Camera) (windowWidth windowHeight : Nat)
    (s : Program) (pX pY : Int) : Option Program :=
  let cX := deviceX windowWidth pX
  let cY := deviceY windowHeight pY
  if s.pickedControlPoint ≥ 0 then
    match MoveControlPoint oob cam s.curve s.pickedControlPoint cX cY with
    | none => none
    | some c1 => some { s with curve := c1 }
  else some s

/-- `onKeyboard(key, pX, pY)`: one interpolation step, whatever the key. -/
def onKeyboard (oob : Option vec4) (s : Program) : Option Program :=
  match InterpolateStep oob s.curve with
  | none => none
  | some c1 => some { s with curve := c1 }

/-- An input event as GLUT delivers it to the handlers. -/
inductive Event where
  | mouse (button : Button) (state : ButtonState) (pX pY : Int)
  | motion (pX pY : Int)
  | keyboard
deriving DecidableEq

/-- Deliver one event to its handler. -/
def Event.handle (oob : Option vec4) (cam : Camera) (windowWidth windowHeight : Nat)
    (s : Program) : Event → Option Program
  | Event.mouse button state pX pY => onMouse oob cam windowWidth windowHeight s button state pX pY
  | Event.motion pX pY => onMouseMotion oob cam windowWidth windowHeight s pX pY
  | Event.keyboard => onKeyboard oob s

/-- Deliver a sequence of events, first to last, from the program state `s`. -/
def runEvents (oob : Option vec4) (cam : Camera) (windowWidth windowHeight : Nat) :
    List Event → Program → Option Program
  | [], s => some s
  | e :: es, s =>
    match e.handle oob cam windowWidth windowHeight s with
    | none => none
    | some s1 => runEvents oob cam windowWidth windowHeight es s1

/-! ## Closed forms used in the proofs -/

/-- The value pushed by iteration `i` of the first loop of `nextSubdivisionCalculate`
when its reads are in range. -/
def midAt (S : List vec4) (i : Nat) : vec4 :=
  (S.getD i ⟨0, 0, 0, 0⟩ + S.getD (i + 1) ⟨0, 0, 0, 0⟩) / (2 : ℚ)

/-- The value pushed by iteration `i` of the second loop of `nextSubdivisionCalculate`
when its reads are in range. -/
def smoothAt (S : List vec4) (i : Nat) : vec4 :=
  (S.getD (i - 1) ⟨0, 0, 0, 0⟩ + (6 : ℚ) * S.getD i ⟨0, 0, 0, 0⟩
    + S.getD (i + 1) ⟨0, 0, 0, 0⟩) / (8 : ℚ)

/-- What the first loop of `nextSubdivisionCalculate` collects on a non-empty `S`. -/
def halfPts (S : List vec4) : List vec4 :=
  (List.range' 0 (S.length - 1)).map (midAt S)

/-- What the second loop of `nextSubdivisionCalculate` collects on a non-empty `S`. -/
def newPts (S : List vec4) : List vec4 :=
  (List.range' 1 (S.length - 1 - 1)).map (smoothAt S)

/-- What the third loop of `nextSubdivisionCalculate` collects from `H` and `N` when
`H` is at least as long as `N`. -/
def weave (H N : List vec4) : List vec4 :=
  (List.range' 0 N.length).flatMap
    (fun i => [H.getD i ⟨0, 0, 0, 0⟩, N.getD i ⟨0, 0, 0, 0⟩])

/-- What one round of subdivision leaves in `wCurvePoints` for an `S` of 3 points or
more. -/
def refined (S : List vec4) : List vec4 :=
  weave (halfPts S) (newPts S) ++
    [(halfPts S).getD 0 ⟨0, 0, 0, 0⟩, (newPts S).getD 0 ⟨0, 0, 0, 0⟩]


/-- Squared Euclidean distance of two points in the world plane (their `x`, `y`). -/
def sqDist (a b : vec4) : ℚ := (a.x - b.x) ^ 2 + (a.y - b.y) ^ 2

/-- The value pushed by iteration `i` of the first loop of `InterpolateStep` when a read
out of range yields `v`. -/
def limAt (v : vec4) (T : List vec4) (i : Nat) : vec4 :=
  (T.getD (i - 1) v + (4 : ℚ) * T.getD i v + T.getD (i + 1) v) / (6 : ℚ)

/-- What the first loop of `InterpolateStep` collects when a read out of range
yields `v`. -/
def limitPts (v : vec4) (T : List vec4) : List vec4 :=
  (List.range' 1 (T.length - 1)).map (limAt v T)

/-- Entry `i` of `verticesLimit` on 3 targets or more: the limit point of knot `n - 2`
in front, then those of knots `1` to `n - 1`. -/
def vlAt (v : vec4) (T : List vec4) (i : Nat) : vec4 :=
  if i = 0 then limAt v T (T.length - 2) else limAt v T i

/-- The integer nearest to `r`, the even one of the two when `r` is half-way. -/
def roundHalfEven (r : ℚ) : ℤ :=
  if r - ⌊r⌋ < 1 / 2 then ⌊r⌋
  else if 1 / 2 < r - ⌊r⌋ then ⌊r⌋ + 1
  else if ⌊r⌋ % 2 = 0 then ⌊r⌋ else ⌊r⌋ + 1

/-- The binary32 exponent of `x`: the `e` with `2^e ≤ |x| < 2^(e+1)`, and `-126`, the
exponent of the subnormal numbers, below that. -/
def exponent32 (x : ℚ) : ℤ := max (Int.log 2 |x|) (-126)

/-- Rounding to binary32: the multiple of `2^(e-23)` nearest to `x`, ties to even, with
`e` the binary32 exponent of `x` (24 significant bits). -/
def fl32 (x : ℚ) : ℚ :=
  (roundHalfEven (x / (2 : ℚ) ^ (exponent32 x - 23)) : ℚ) * (2 : ℚ) ^ (exponent32 x - 23)

/-- The rational `x` is a finite binary32 number: rounding leaves it as it is and it is
below the overflow threshold. -/
def finite32 (x : ℚ) : Prop := fl32 x = x ∧ |x| < 2 ^ 128

namespace vec4

/-- Modelled from the spec: `vec4 + vec4` of `framework.h`, each component sum rounded. -/
def addR (rnd : ℚ → ℚ) (a b : vec4) : vec4 :=
  ⟨rnd (a.x + b.x), rnd (a.y + b.y), rnd (a.z + b.z), rnd (a.w + b.w)⟩

/-- Modelled from the spec: `float * vec4` of `framework.h`, each component product
rounded. -/
def smulR (rnd : ℚ → ℚ) (s : ℚ) (a : vec4) : vec4 :=
  ⟨rnd (a.x * s), rnd (a.y * s), rnd (a.z * s), rnd (a.w * s)⟩

/-- Modelled from the spec: `vec4 / float` of `framework.h`, each component quotient
rounded. -/
def sdivR (rnd : ℚ → ℚ) (a : vec4) (d : ℚ) : vec4 :=
  ⟨rnd (a.x / d), rnd (a.y / d), rnd (a.z / d), rnd (a.w / d)⟩

/-- The point `-a`; negation is exact in binary32. -/
def neg (a : vec4) : vec4 := ⟨-a.x, -a.y, -a.z, -a.w⟩

end vec4

/-- The expression `(a + b) / 2` of the first loop of `nextSubdivisionCalculate`, as
computed. -/
def midR (rnd : ℚ → ℚ) (a b : vec4) : vec4 :=
  vec4.sdivR rnd (vec4.addR rnd a b) 2

/-- The expression `(a + 6 * b + d) / 8` of the second loop of
`nextSubdivisionCalculate`, as computed: the product first, then the two sums from the
left, then the quotient. -/
def smoothR (rnd : ℚ → ℚ) (a b d : vec4) : vec4 :=
  vec4.sdivR rnd (vec4.addR rnd (vec4.addR rnd a (vec4.smulR rnd 6 b)) d) 8

/-- Body of the first loop of `nextSubdivisionCalculate`, with rounding. -/
def halfBodyR (rnd : ℚ → ℚ) (oob : Option vec4) (S : List vec4) (i : Nat)
    (acc : List vec4) : Option (List vec4) :=
  match rd oob S i, rd oob S (i + 1) with
  | some a, some b => some (acc ++ [midR rnd a b])
  | _, _ => none

/-- Body of the second loop of `nextSubdivisionCalculate`, with rounding. -/
def newBodyR (rnd : ℚ → ℚ) (oob : Option vec4) (S : List vec4) (i : Nat)
    (acc : List vec4) : Option (List vec4) :=
  match rd oob S (i - 1), rd oob S i, rd oob S (i + 1) with
  | some a, some b, some d => some (acc ++ [smoothR rnd a b d])
  | _, _, _ => none

/-- The body of `nextSubdivisionCalculate` on the content `S` of `wCurvePoints`, with
rounding: the same three loops and two final pushes as `subdivisionRound`. -/
def subdivisionRoundR (rnd : ℚ → ℚ) (oob : Option vec4) (S : List vec4) :
    Option (List vec4) :=
  match forLoop (halfBodyR rnd oob S) (sizeSub S.length 1 - 0) 0 [] with
  | none => none
  | some wHalfPoints =>
    match forLoop (newBodyR rnd oob S) (sizeSub S.length 1 - 1) 1 [] with
    | none => none
    | some wNewVertices =>
      match forLoop (weaveBody oob wHalfPoints wNewVertices) (wNewVertices.length - 0) 0 [] with
      | none => none
      | some pts =>
        match rd oob wHalfPoints 0, rd oob wNewVertices 0 with
        | some h0, some v0 => some (pts ++ [h0] ++ [v0])
        | _, _ => none

/-- Modelled from the spec: `vec4 * mat4` of `framework.h` with rounding: the four
products `v[j] * row j`, summed from the left. -/
def vec4.mulMatR (rnd : ℚ → ℚ) (v : vec4) (m : mat4) : vec4 :=
  vec4.addR rnd (vec4.addR rnd (vec4.addR rnd (vec4.smulR rnd v.x m.r0)
    (vec4.smulR rnd v.y m.r1)) (vec4.smulR rnd v.z m.r2)) (vec4.smulR rnd v.w m.r3)

/-- Modelled from the spec: `mat4 * mat4` of `framework.h` with rounding, each row of
the left factor times the right factor. -/
def mat4.mulR (rnd : ℚ → ℚ) (a b : mat4) : mat4 :=
  ⟨vec4.mulMatR rnd a.r0 b, vec4.mulMatR rnd a.r1 b, vec4.mulMatR rnd a.r2 b,
    vec4.mulMatR rnd a.r3 b⟩

/-- `Camera::P()` with the two quotients `2 / wWx`, `2 / wWy` rounded; for a zero
width or height the machine has an infinity there, and there is no value. -/
def Camera.PR (rnd : ℚ → ℚ) (c : Camera) : Option mat4 :=
  if c.wWx = 0 ∨ c.wWy = 0 then none
  else some ⟨⟨rnd (2 / c.wWx), 0, 0, 0⟩, ⟨0, rnd (2 / c.wWy), 0, 0⟩, ⟨0, 0, 1, 0⟩,
    ⟨0, 0, 0, 1⟩⟩

/-- `Camera::Pinv()` with the two quotients `wWx / 2`, `wWy / 2` rounded. -/
def Camera.PinvR (rnd : ℚ → ℚ) (c : Camera) : mat4 :=
  ⟨⟨rnd (c.wWx / 2), 0, 0, 0⟩, ⟨0, rnd (c.wWy / 2), 0, 0⟩, ⟨0, 0, 1, 0⟩, ⟨0, 0, 0, 1⟩⟩

/-- The expression `vec4(cX, cY, 0, 1) * camera.Pinv() * camera.Vinv()` with rounding;
`Vinv()` itself has no arithmetic. -/
def worldVertexR (rnd : ℚ → ℚ) (cam : Camera) (cX cY : ℚ) : vec4 :=
  vec4.mulMatR rnd (vec4.mulMatR rnd ⟨cX, cY, 0, 1⟩ (cam.PinvR rnd)) cam.Vinv

/-! ### Closed forms of the rounded subdivision, used in the proofs -/

/-- The value pushed by iteration `i` of the first loop, with rounding, when its reads
are in range. -/
def midAtR (rnd : ℚ → ℚ) (S : List vec4) (i : Nat) : vec4 :=
  midR rnd (S.getD i ⟨0, 0, 0, 0⟩) (S.getD (i + 1) ⟨0, 0, 0, 0⟩)

/-- The value pushed by iteration `i` of the second loop, with rounding, when its reads
are in range. -/
def smoothAtR (rnd : ℚ → ℚ) (S : List vec4) (i : Nat) : vec4 :=
  smoothR rnd (S.getD (i - 1) ⟨0, 0, 0, 0⟩) (S.getD i ⟨0, 0, 0, 0⟩)
    (S.getD (i + 1) ⟨0, 0, 0, 0⟩)

/-- What the first loop collects, with rounding, on a non-empty `S`. -/
def halfPtsR (rnd : ℚ → ℚ) (S : List vec4) : List vec4 :=
  (List.range' 0 (S.length - 1)).map (midAtR rnd S)

/-- What the second loop collects, with rounding, on a non-empty `S`. -/
def newPtsR (rnd : ℚ → ℚ) (S : List vec4) : List vec4 :=
  (List.range' 1 (S.length - 1 - 1)).map (smoothAtR rnd S)

/-- What one round of subdivision with rounding leaves in `wCurvePoints` for an `S` of
3 points or more. -/
def refinedR (rnd : ℚ → ℚ) (S : List vec4) : List vec4 :=
  weave (halfPtsR rnd S) (newPtsR rnd S) ++
    [(halfPtsR rnd S).getD 0 ⟨0, 0, 0, 0⟩, (newPtsR rnd S).getD 0 ⟨0, 0, 0, 0⟩]

/-! ## Reads and loops -/

theorem rd_of_lt (oob : Option vec4) (S : List vec4) (i : Nat) (h : i < S.length) :
    rd oob S i = some (S.getD i ⟨0, 0, 0, 0⟩) := by
  simp [rd, List.getElem?_eq_getElem h]

theorem getElem?_getD_of_lt (S : List vec4) (i : Nat) (h : i < S.length) :
    S[i]? = some (S.getD i ⟨0, 0, 0, 0⟩) := by
  simp [List.getElem?_eq_getElem h]

theorem rd_of_getElem? (oob : Option vec4) (S : List vec4) (i : Nat) (a : vec4)
    (h : S[i]? = some a) : rd oob S i = some a := by
  simp [rd, h]

theorem forLoop_collect {body : Nat → List vec4 → Option (List vec4)}
    {f : Nat → List vec4} :
    ∀ (fuel start : Nat) (acc : List vec4),
      (∀ i a, start ≤ i → i < start + fuel → body i a = some (a ++ f i)) →
      forLoop body fuel start acc = some (acc ++ (List.range' start fuel).flatMap f) := by
  intro fuel
  induction fuel with
  | zero => intro start acc _; simp [forLoop]
  | succ k ih =>
    intro start acc h
    rw [forLoop, h start acc (le_refl _) (by omega)]
    simp only []
    rw [ih (start + 1) (acc ++ f start) (fun i a h1 h2 => h i a (by omega) (by omega))]
    simp [List.range'_succ, List.append_assoc]

theorem forLoop_collect_one {body : Nat → List vec4 → Option (List vec4)}
    {g : Nat → vec4} (fuel start : Nat) (acc : List vec4)
    (h : ∀ i a, start ≤ i → i < start + fuel → body i a = some (a ++ [g i])) :
    forLoop body fuel start acc = some (acc ++ (List.range' start fuel).map g) := by
  rw [forLoop_collect fuel start acc h]
  congr 2
  induction (List.range' start fuel) with
  | nil => rfl
  | cons a l ih => simp [List.flatMap_cons, ih]

/-! ## One round of subdivision -/

theorem length_halfPts (S : List vec4) : (halfPts S).length = S.length - 1 := by
  simp [halfPts]

theorem length_newPts (S : List vec4) : (newPts S).length = S.length - 2 := by
  simp [newPts]; omega

theorem getD_halfPts (S : List vec4) (k : Nat) (h : k + 1 < S.length) :
    (halfPts S).getD k ⟨0, 0, 0, 0⟩ = midAt S k := by
  have : k < S.length - 1 := by omega
  simp [halfPts, List.getElem?_range' 0 1 this]

theorem getD_newPts (S : List vec4) (k : Nat) (h : k + 2 < S.length) :
    (newPts S).getD k ⟨0, 0, 0, 0⟩ = smoothAt S (k + 1) := by
  have : k < S.length - 1 - 1 := by omega
  simp [newPts, List.getElem?_range' 1 1 this, Nat.add_comm]

theorem length_pairs (f g : Nat → vec4) (m : Nat) :
    ((List.range' 0 m).flatMap (fun i => [f i, g i])).length = 2 * m := by
  induction m with
  | zero => simp
  | succ m ih => rw [List.range'_1_concat, List.flatMap_append, List.length_append, ih]; simp; omega

theorem getElem?_pairs (f g : Nat → vec4) (m k : Nat) (h : k < m) :
    ((List.range' 0 m).flatMap (fun i => [f i, g i]))[2 * k]? = some (f k) ∧
    ((List.range' 0 m).flatMap (fun i => [f i, g i]))[2 * k + 1]? = some (g k) := by
  induction m with
  | zero => omega
  | succ m ih =>
    rw [List.range'_1_concat, List.flatMap_append]
    by_cases hk : k < m
    · have h1 := ih hk
      have hl := length_pairs f g m
      constructor
      · rw [List.getElem?_append_left (by omega)]; exact h1.1
      · rw [List.getElem?_append_left (by omega)]; exact h1.2
    · have hkm : k = m := by omega
      subst hkm
      have hl := length_pairs f g k
      constructor
      · rw [List.getElem?_append_right (by omega), hl]; simp
      · rw [List.getElem?_append_right (by omega), hl]; simp

theorem length_weave (H N : List vec4) : (weave H N).length = 2 * N.length :=
  length_pairs _ _ _

theorem length_refined (S : List vec4) : (refined S).length = 2 * (S.length - 2) + 2 := by
  simp [refined, length_weave, length_newPts]

theorem subdivisionRound_eq (oob : Option vec4) (S : List vec4) (hn : 3 ≤ S.length) :
    subdivisionRound oob S = some (refined S) := by
  have hs : sizeSub S.length 1 = S.length - 1 := by
    unfold sizeSub; rw [if_pos (by omega)]
  have hH : forLoop (halfBody oob S) (S.length - 1) 0 [] = some (halfPts S) := by
    rw [forLoop_collect_one (S.length - 1) 0 [] (g := midAt S)]
    · simp [halfPts]
    · intro i a _ hi
      simp [halfBody, rd_of_lt oob S i (by omega), rd_of_lt oob S (i + 1) (by omega), midAt]
  have hN : forLoop (newBody oob S) (S.length - 1 - 1) 1 [] = some (newPts S) := by
    rw [forLoop_collect_one (S.length - 1 - 1) 1 [] (g := smoothAt S)]
    · simp [newPts]
    · intro i a h1 hi
      simp [newBody, rd_of_lt oob S (i - 1) (by omega), rd_of_lt oob S i (by omega),
        rd_of_lt oob S (i + 1) (by omega), smoothAt]
  have hW : forLoop (weaveBody oob (halfPts S) (newPts S)) (newPts S).length 0 []
      = some (weave (halfPts S) (newPts S)) := by
    rw [forLoop_collect (newPts S).length 0 []
      (f := fun i => [(halfPts S).getD i ⟨0, 0, 0, 0⟩, (newPts S).getD i ⟨0, 0, 0, 0⟩])]
    · simp [weave]
    · intro i a _ hi
      have hi2 : i < (newPts S).length := by omega
      have hi1 : i < (halfPts S).length := by
        rw [length_halfPts]; rw [length_newPts] at hi2; omega
      simp [weaveBody, rd_of_lt oob _ i hi1, rd_of_lt oob _ i hi2]
  have h0 : 0 < (halfPts S).length := by rw [length_halfPts]; omega
  have h1 : 0 < (newPts S).length := by rw [length_newPts]; omega
  unfold subdivisionRound
  simp only [hs, Nat.sub_zero, hH, hN, hW, rd_of_lt oob _ 0 h0, rd_of_lt oob _ 0 h1]
  simp [refined]

theorem getElem?_refined (S : List vec4) (k : Nat) (h : k + 2 < S.length) :
    (refined S)[2 * k]? = some (midAt S k) ∧
    (refined S)[2 * k + 1]? = some (smoothAt S (k + 1)) := by
  have hk : k < (newPts S).length := by rw [length_newPts]; omega
  have hp := getElem?_pairs (fun i => (halfPts S).getD i ⟨0, 0, 0, 0⟩)
    (fun i => (newPts S).getD i ⟨0, 0, 0, 0⟩) (newPts S).length k hk
  have hl := length_weave (halfPts S) (newPts S)
  unfold refined
  constructor
  · rw [List.getElem?_append_left (by omega)]
    rw [← getD_halfPts S k (by omega)]; exact hp.1
  · rw [List.getElem?_append_left (by omega)]
    rw [← getD_newPts S k (by omega)]; exact hp.2

theorem getElem?_refined_wrap (S : List vec4) (hn : 3 ≤ S.length) :
    (refined S)[2 * S.length - 4]? = some (midAt S 0) ∧
    (refined S)[2 * S.length - 3]? = some (smoothAt S 1) := by
  have hl := length_weave (halfPts S) (newPts S)
  rw [length_newPts] at hl
  unfold refined
  constructor
  · rw [List.getElem?_append_right (by omega), hl]
    have : 2 * S.length - 4 - 2 * (S.length - 2) = 0 := by omega
    rw [this, getD_halfPts S 0 (by omega)]; rfl
  · rw [List.getElem?_append_right (by omega), hl]
    have : 2 * S.length - 3 - 2 * (S.length - 2) = 1 := by omega
    rw [this, getD_newPts S 0 (by omega)]; rfl

theorem length_refined_ge (S : List vec4) (hn : 3 ≤ S.length) : 3 ≤ (refined S).length := by
  rw [length_refined]; omega

theorem nextSubdivisionCalculate_eq (oob : Option vec4) (S OG T : List vec4)
    (hn : 3 ≤ S.length) :
    nextSubdivisionCalculate oob ⟨S, OG, T⟩ = some ⟨refined S, OG, T⟩ := by
  simp [nextSubdivisionCalculate, subdivisionRound_eq oob _ hn]

theorem subdivide4_eq (oob : Option vec4) (S OG T : List vec4) (hn : 3 ≤ S.length) :
    subdivide4 oob ⟨S, OG, T⟩ = some ⟨refined (refined (refined (refined S))), OG, T⟩ := by
  have h1 := length_refined_ge _ hn
  have h2 := length_refined_ge _ h1
  have h3 := length_refined_ge _ h2
  unfold subdivide4
  rw [show (4 - 0 : Nat) = 3 + 1 from rfl, forLoop, nextSubdivisionCalculate_eq oob S OG T hn]
  simp only []
  rw [forLoop, nextSubdivisionCalculate_eq oob _ OG T h1]
  simp only []
  rw [forLoop, nextSubdivisionCalculate_eq oob _ OG T h2]
  simp only []
  rw [forLoop, nextSubdivisionCalculate_eq oob _ OG T h3]
  simp only []
  rw [forLoop]

theorem insertIdx_eq_take_cons_drop (x : vec4) :
    ∀ (n : Nat) (l : List vec4), n ≤ l.length →
      List.insertIdx n x l = l.take n ++ x :: l.drop n := by
  intro n
  induction n with
  | zero => intro l _; simp [List.insertIdx_zero]
  | succ n ih =>
    intro l h
    cases l with
    | nil => simp at h
    | cons a l =>
      rw [List.insertIdx_succ_cons, ih l (by simpa using h)]
      simp

theorem drop_last_two (l : List vec4) (h : 2 ≤ l.length) :
    ∃ a b, l[l.length - 2]? = some a ∧ l[l.length - 1]? = some b ∧
      l.drop (l.length - 2) = [a, b] := by
  have h1 : l.length - 2 < l.length := by omega
  have h2 : l.length - 1 < l.length := by omega
  refine ⟨l[l.length - 2], l[l.length - 1], List.getElem?_eq_getElem h1,
    List.getElem?_eq_getElem h2, ?_⟩
  apply List.ext_getElem
  · simp; omega
  · intro i hi1 hi2
    simp at hi2
    rcases Nat.lt_succ_iff_lt_or_eq.mp hi2 with h0 | h1
    · have : i = 0 := by omega
      subst this; simp
    · subst h1; simp
      congr 1
      omega

/-! ## The three branches of `AddControlPoint` -/

theorem AddControlPoint_ge4 (oob : Option vec4) (cam : Camera) (W OG T : List vec4)
    (cX cY : ℚ) (hn : 4 ≤ OG.length) :
    AddControlPoint oob cam ⟨W, OG, T⟩ cX cY =
      some ⟨refined (refined (refined (refined
              (List.insertIdx (OG.length - 2) (worldVertex cam cX cY) OG)))),
            List.insertIdx (OG.length - 2) (worldVertex cam cX cY) OG,
            List.insertIdx (OG.length - 2) (worldVertex cam cX cY) OG⟩ := by
  have hl : 3 ≤ (List.insertIdx (OG.length - 2) (worldVertex cam cX cY) OG).length := by
    rw [List.length_insertIdx _ _ (by omega)]; omega
  simp only [AddControlPoint, ge_iff_le, if_pos hn]
  rw [subdivide4_eq oob _ _ _ hl]

theorem AddControlPoint_one (oob : Option vec4) (cam : Camera) (W T : List vec4)
    (P0 : vec4) (cX cY : ℚ) :
    AddControlPoint oob cam ⟨W, [P0], T⟩ cX cY =
      some ⟨[P0, worldVertex cam cX cY, P0, worldVertex cam cX cY],
            [P0, worldVertex cam cX cY, P0, worldVertex cam cX cY],
            [P0, worldVertex cam cX cY, P0, worldVertex cam cX cY]⟩ := by
  simp [AddControlPoint, rd]

theorem AddControlPoint_other (oob : Option vec4) (cam : Camera) (W OG T : List vec4)
    (cX cY : ℚ) (h4 : ¬ 4 ≤ OG.length) (h1 : OG.length ≠ 1) :
    AddControlPoint oob cam ⟨W, OG, T⟩ cX cY =
      some ⟨W, OG ++ [worldVertex cam cX cY], OG ++ [worldVertex cam cX cY]⟩ := by
  simp [AddControlPoint, h4, h1]

theorem AddControlPoint_total (oob : Option vec4) (cam : Camera) (c : SubdivisionCurve)
    (cX cY : ℚ) :
    ∃ c1, AddControlPoint oob cam c cX cY = some c1 ∧
      c1.InterpolateCtrlPoints = c1.OGCtrlPoints ∧
      worldVertex cam cX cY ∈ c1.OGCtrlPoints ∧
      c.OGCtrlPoints.length < c1.OGCtrlPoints.length := by
  obtain ⟨W, OG, T⟩ := c
  by_cases h4 : 4 ≤ OG.length
  · refine ⟨_, AddControlPoint_ge4 oob cam W OG T cX cY h4, rfl, ?_, ?_⟩
    · simp only
      rw [insertIdx_eq_take_cons_drop _ _ _ (by omega)]
      simp
    · simp only
      rw [List.length_insertIdx _ _ (by omega)]; omega
  · by_cases h1 : OG.length = 1
    · obtain ⟨P0, rfl⟩ := List.length_eq_one.mp h1
      exact ⟨_, AddControlPoint_one oob cam W T P0 cX cY, rfl, by simp, by simp⟩
    · exact ⟨_, AddControlPoint_other oob cam W OG T cX cY h4 h1, rfl, by simp, by simp⟩

/-! ## What the operations leave alone -/

theorem forLoop_inv {σ : Type} (Q : σ → Prop) (body : Nat → σ → Option σ)
    (hb : ∀ i s s1, Q s → body i s = some s1 → Q s1) :
    ∀ (fuel i : Nat) (s s1 : σ), Q s → forLoop body fuel i s = some s1 → Q s1 := by
  intro fuel
  induction fuel with
  | zero =>
    intro i s s1 hs h
    simp only [forLoop, Option.some.injEq] at h
    exact h ▸ hs
  | succ k ih =>
    intro i s s1 hs h
    rw [forLoop] at h
    cases hbody : body i s with
    | none => rw [hbody] at h; simp at h
    | some s2 =>
      rw [hbody] at h
      exact ih (i + 1) s2 s1 (hb i s s2 hs hbody) h

theorem nextSubdivisionCalculate_frame (oob : Option vec4) (c c1 : SubdivisionCurve)
    (h : nextSubdivisionCalculate oob c = some c1) :
    c1.OGCtrlPoints = c.OGCtrlPoints ∧ c1.InterpolateCtrlPoints = c.InterpolateCtrlPoints := by
  unfold nextSubdivisionCalculate at h
  cases hr : subdivisionRound oob c.wCurvePoints with
  | none => rw [hr] at h; simp at h
  | some R =>
    rw [hr] at h
    simp only [Option.some.injEq] at h
    subst h
    exact ⟨rfl, rfl⟩

theorem subdivide4_frame (oob : Option vec4) (c c1 : SubdivisionCurve)
    (h : subdivide4 oob c = some c1) :
    c1.OGCtrlPoints = c.OGCtrlPoints ∧ c1.InterpolateCtrlPoints = c.InterpolateCtrlPoints := by
  refine forLoop_inv
    (fun s => s.OGCtrlPoints = c.OGCtrlPoints ∧
      s.InterpolateCtrlPoints = c.InterpolateCtrlPoints)
    (fun _ s => nextSubdivisionCalculate oob s) ?_ (4 - 0) 0 c c1 ⟨rfl, rfl⟩ h
  intro i s s1 hs hb
  have := nextSubdivisionCalculate_frame oob s s1 hb
  exact ⟨this.1.trans hs.1, this.2.trans hs.2⟩

theorem nudgeBody_length (oob : Option vec4) (OG L : List vec4) (i : Nat) (T T1 : List vec4)
    (h : nudgeBody oob OG L i T = some T1) : T1.length = T.length := by
  unfold nudgeBody at h
  split at h
  · simp only [Option.some.injEq] at h
    subst h
    simp
  · simp at h

theorem AddControlPoint_frame (oob : Option vec4) (cam : Camera) (c c1 : SubdivisionCurve)
    (cX cY : ℚ) (h : AddControlPoint oob cam c cX cY = some c1) :
    c1.InterpolateCtrlPoints = c1.OGCtrlPoints := by
  obtain ⟨c2, h2, h3, _⟩ := AddControlPoint_total oob cam c cX cY
  rw [h2] at h
  simp only [Option.some.injEq] at h
  subst h
  exact h3

theorem MoveControlPoint_frame (oob : Option vec4) (cam : Camera) (c c1 : SubdivisionCurve)
    (p : Int) (cX cY : ℚ) (h : MoveControlPoint oob cam c p cX cY = some c1) :
    0 ≤ p ∧ p.toNat < c.OGCtrlPoints.length ∧
    c1.OGCtrlPoints = c.OGCtrlPoints.set p.toNat (worldVertex cam cX cY) ∧
    c1.InterpolateCtrlPoints = c.InterpolateCtrlPoints := by
  unfold MoveControlPoint at h
  simp only at h
  split at h
  · rename_i hp
    have := subdivide4_frame oob _ c1 h
    exact ⟨hp.1, hp.2, this.1, this.2⟩
  · simp at h

theorem InterpolateStep_frame (oob : Option vec4) (c c1 : SubdivisionCurve)
    (h : InterpolateStep oob c = some c1) :
    c1.OGCtrlPoints = c.OGCtrlPoints ∧
    c1.InterpolateCtrlPoints.length = c.InterpolateCtrlPoints.length := by
  unfold InterpolateStep at h
  simp only at h
  split at h
  · simp at h
  · split at h
    · simp at h
    · split at h
      · simp at h
      · rename_i T1 hT1
        have hf := subdivide4_frame oob _ c1 h
        refine ⟨hf.1, ?_⟩
        rw [hf.2]
        exact forLoop_inv (fun T => T.length = c.InterpolateCtrlPoints.length) _
          (fun i s s1 hs hb => (nudgeBody_length oob _ _ i s s1 hb).trans hs) _ 0 _ T1 rfl hT1

/-! ## Vectors, the world vertex, and the scan of `PickControlPoint` -/

theorem vec4.add_def (a b : vec4) : a + b = ⟨a.x + b.x, a.y + b.y, a.z + b.z, a.w + b.w⟩ :=
  rfl

theorem vec4.sub_def (a b : vec4) : a - b = ⟨a.x - b.x, a.y - b.y, a.z - b.z, a.w - b.w⟩ :=
  rfl

theorem vec4.smul_def (s : ℚ) (a : vec4) : s * a = ⟨s * a.x, s * a.y, s * a.z, s * a.w⟩ :=
  rfl

theorem vec4.sdiv_def (a : vec4) (d : ℚ) : a / d = ⟨a.x / d, a.y / d, a.z / d, a.w / d⟩ :=
  rfl

theorem vec4.mulMat_def (v : vec4) (m : mat4) :
    v * m = v.x * m.r0 + v.y * m.r1 + v.z * m.r2 + v.w * m.r3 :=
  rfl

theorem worldVertex_eq (cam : Camera) (cX cY : ℚ) :
    worldVertex cam cX cY = ⟨cX * (cam.wWx / 2) + cam.wCx, cY * (cam.wWy / 2) + cam.wCy, 0, 1⟩ := by
  simp [worldVertex, vec4.mulMat_def, vec4.add_def, vec4.smul_def, Camera.Pinv, Camera.Vinv]

theorem dot_sub_self (v : vec4) : dot (v - v) (v - v) = 0 := by
  simp [dot, vec4.sub_def]

theorem dot_sub_world (v q : vec4) (hv : v.z = 0 ∧ v.w = 1) (hq : q.z = 0 ∧ q.w = 1) :
    dot (v - q) (v - q) = sqDist v q := by
  simp [dot, vec4.sub_def, sqDist, hv.1, hv.2, hq.1, hq.2]
  ring

theorem pickLoop_spec (oob : Option vec4) (OG : List vec4) (q : vec4) :
    ∀ (fuel p : Nat), p + fuel = OG.length →
      ∃ r : Int, pickLoop oob OG q fuel p = some r ∧
        ((r = -1 ∧ ∀ j, p ≤ j → j < OG.length →
            ¬ dot (OG.getD j ⟨0, 0, 0, 0⟩ - q) (OG.getD j ⟨0, 0, 0, 0⟩ - q) < (1 / 2 : ℚ)) ∨
         (∃ i : Nat, r = (i : Int) ∧ p ≤ i ∧ i < OG.length ∧
            dot (OG.getD i ⟨0, 0, 0, 0⟩ - q) (OG.getD i ⟨0, 0, 0, 0⟩ - q) < (1 / 2 : ℚ) ∧
            ∀ j, p ≤ j → j < i →
              ¬ dot (OG.getD j ⟨0, 0, 0, 0⟩ - q) (OG.getD j ⟨0, 0, 0, 0⟩ - q) < (1 / 2 : ℚ))) := by
  intro fuel
  induction fuel with
  | zero =>
    intro p hp
    exact ⟨-1, rfl, Or.inl ⟨rfl, fun j h1 h2 => by omega⟩⟩
  | succ k ih =>
    intro p hp
    rw [pickLoop, rd_of_lt oob OG p (by omega)]
    simp only
    by_cases hnear :
        dot (OG.getD p ⟨0, 0, 0, 0⟩ - q) (OG.getD p ⟨0, 0, 0, 0⟩ - q) < (1 / 2 : ℚ)
    · rw [if_pos hnear]
      exact ⟨p, rfl, Or.inr ⟨p, rfl, le_refl _, by omega, hnear, fun j h1 h2 => by omega⟩⟩
    · rw [if_neg hnear]
      obtain ⟨r, hr, hcase⟩ := ih (p + 1) (by omega)
      refine ⟨r, hr, ?_⟩
      rcases hcase with ⟨h1, h2⟩ | ⟨i, h1, h2, h3, h4, h5⟩
      · refine Or.inl ⟨h1, fun j hj1 hj2 => ?_⟩
        by_cases hjp : j = p
        · subst hjp; exact hnear
        · exact h2 j (by omega) hj2
      · refine Or.inr ⟨i, h1, by omega, h3, h4, fun j hj1 hj2 => ?_⟩
        by_cases hjp : j = p
        · subst hjp; exact hnear
        · exact h5 j (by omega) hj2

theorem PickControlPoint_char (oob : Option vec4) (cam : Camera) (c : SubdivisionCurve)
    (cX cY : ℚ) (hW : ∀ v ∈ c.OGCtrlPoints, v.z = 0 ∧ v.w = 1) :
    ∃ r : Int, PickControlPoint oob cam c cX cY = some (r, c) ∧
      ((r = -1 ∧ ∀ (j : Nat) (u : vec4), c.OGCtrlPoints[j]? = some u →
          (1 / 2 : ℚ) ≤ sqDist u (worldVertex cam cX cY)) ∨
       (∃ (i : Nat) (v : vec4), r = (i : Int) ∧ c.OGCtrlPoints[i]? = some v ∧
          sqDist v (worldVertex cam cX cY) < (1 / 2 : ℚ) ∧
          ∀ (j : Nat) (u : vec4), j < i → c.OGCtrlPoints[j]? = some u →
            (1 / 2 : ℚ) ≤ sqDist u (worldVertex cam cX cY))) := by
  have hq : (worldVertex cam cX cY).z = 0 ∧ (worldVertex cam cX cY).w = 1 := by
    rw [worldVertex_eq]; exact ⟨rfl, rfl⟩
  have hget : ∀ (j : Nat) (u : vec4), c.OGCtrlPoints[j]? = some u →
      j < c.OGCtrlPoints.length ∧ c.OGCtrlPoints.getD j ⟨0, 0, 0, 0⟩ = u ∧
      dot (u - worldVertex cam cX cY) (u - worldVertex cam cX cY)
        = sqDist u (worldVertex cam cX cY) := by
    intro j u hu
    obtain ⟨hj, hju⟩ := List.getElem?_eq_some_iff.mp hu
    refine ⟨hj, by simp [hu], dot_sub_world u _ (hW u ?_) hq⟩
    exact hju ▸ List.getElem_mem _
  obtain ⟨r, hr, hcase⟩ :=
    pickLoop_spec oob c.OGCtrlPoints (worldVertex cam cX cY) c.OGCtrlPoints.length 0 (by omega)
  refine ⟨r, by simp [PickControlPoint, hr], ?_⟩
  rcases hcase with ⟨h1, h2⟩ | ⟨i, h1, _, h3, h4, h5⟩
  · refine Or.inl ⟨h1, fun j u hu => ?_⟩
    obtain ⟨hj, hju, hd⟩ := hget j u hu
    have := h2 j (Nat.zero_le _) hj
    rw [hju, hd] at this
    exact not_lt.mp this
  · have hi := getElem?_getD_of_lt c.OGCtrlPoints i h3
    obtain ⟨_, _, hd⟩ := hget i _ hi
    refine Or.inr ⟨i, _, h1, hi, hd ▸ h4, fun j u hji hu => ?_⟩
    obtain ⟨hj, hju, hd⟩ := hget j u hu
    have := h5 j (Nat.zero_le _) hji
    rw [hju, hd] at this
    exact not_lt.mp this

/-! ## `MoveControlPoint` on three points or more -/

theorem MoveControlPoint_eq (oob : Option vec4) (cam : Camera) (W OG T : List vec4)
    (p : Nat) (cX cY : ℚ) (hn : 3 ≤ OG.length) (hp : p < OG.length) :
    MoveControlPoint oob cam ⟨W, OG, T⟩ (p : Int) cX cY =
      some ⟨refined (refined (refined (refined (OG.set p (worldVertex cam cX cY))))),
            OG.set p (worldVertex cam cX cY), T⟩ := by
  have hl : 3 ≤ (OG.set p (worldVertex cam cX cY)).length := by simpa using hn
  have hc : (0 : Int) ≤ (p : Int) ∧ p < OG.length := ⟨by omega, hp⟩
  simp only [MoveControlPoint, Int.toNat_ofNat]
  rw [if_pos hc, subdivide4_eq oob _ _ _ hl]

/-! ## When out-of-range reads yield a value, the loops always finish -/

theorem rd_some (v : vec4) (S : List vec4) (i : Nat) : ∃ a, rd (some v) S i = some a := by
  unfold rd
  cases S[i]? with
  | none => exact ⟨v, rfl⟩
  | some a => exact ⟨a, rfl⟩

theorem forLoop_total {σ : Type} (body : Nat → σ → Option σ)
    (hb : ∀ i s, ∃ s1, body i s = some s1) :
    ∀ (fuel i : Nat) (s : σ), ∃ s1, forLoop body fuel i s = some s1 := by
  intro fuel
  induction fuel with
  | zero => intro i s; exact ⟨s, rfl⟩
  | succ k ih =>
    intro i s
    obtain ⟨s2, h2⟩ := hb i s
    obtain ⟨s1, h1⟩ := ih (i + 1) s2
    exact ⟨s1, by rw [forLoop, h2]; exact h1⟩

theorem subdivisionRound_total (v : vec4) (S : List vec4) :
    ∃ R, subdivisionRound (some v) S = some R := by
  obtain ⟨H, hH⟩ := forLoop_total (halfBody (some v) S) (fun i acc => by
    obtain ⟨a, ha⟩ := rd_some v S i
    obtain ⟨b, hb⟩ := rd_some v S (i + 1)
    simp [halfBody, ha, hb]) (sizeSub S.length 1 - 0) 0 []
  obtain ⟨N, hN⟩ := forLoop_total (newBody (some v) S) (fun i acc => by
    obtain ⟨a, ha⟩ := rd_some v S (i - 1)
    obtain ⟨b, hb⟩ := rd_some v S i
    obtain ⟨d, hd⟩ := rd_some v S (i + 1)
    simp [newBody, ha, hb, hd]) (sizeSub S.length 1 - 1) 1 []
  obtain ⟨pts, hpts⟩ := forLoop_total (weaveBody (some v) H N) (fun i acc => by
    obtain ⟨a, ha⟩ := rd_some v H i
    obtain ⟨b, hb⟩ := rd_some v N i
    simp [weaveBody, ha, hb]) (N.length - 0) 0 []
  obtain ⟨h0, hh0⟩ := rd_some v H 0
  obtain ⟨v0, hv0⟩ := rd_some v N 0
  refine ⟨pts ++ [h0] ++ [v0], ?_⟩
  simp only [subdivisionRound, hH, hN, hpts, hh0, hv0]

theorem subdivide4_total (v : vec4) (c : SubdivisionCurve) :
    ∃ c1, subdivide4 (some v) c = some c1 := by
  refine forLoop_total (fun _ s => nextSubdivisionCalculate (some v) s) (fun i s => ?_) _ _ _
  obtain ⟨R, hR⟩ := subdivisionRound_total v s.wCurvePoints
  simp [nextSubdivisionCalculate, hR]

/-! ## `InterpolateStep` when the read past the end yields a value -/

theorem rd_some_eq (v : vec4) (S : List vec4) (i : Nat) :
    rd (some v) S i = some (S.getD i v) := by
  unfold rd
  cases h : S[i]? with
  | none => simp [h]
  | some a => simp [h]

theorem getD_of_lt (S : List vec4) (i : Nat) (d e : vec4) (h : i < S.length) :
    S.getD i d = S.getD i e := by
  simp [List.getElem?_eq_getElem h]

theorem length_limitPts (v : vec4) (T : List vec4) : (limitPts v T).length = T.length - 1 := by
  simp [limitPts]

theorem getD_limitPts (v d : vec4) (T : List vec4) (k : Nat) (h : k + 1 < T.length) :
    (limitPts v T).getD k d = limAt v T (k + 1) := by
  have : k < T.length - 1 := by omega
  simp [limitPts, List.getElem?_range' 1 1 this, Nat.add_comm]

theorem limitLoop_eq (v : vec4) (T : List vec4) :
    forLoop (limitBody (some v) T) (T.length - 1) 1 [] = some (limitPts v T) := by
  rw [forLoop_collect_one (T.length - 1) 1 [] (g := limAt v T)]
  · simp [limitPts]
  · intro i a _ _
    simp [limitBody, rd_some_eq, limAt]

theorem verticesLimit_eq (v : vec4) (T : List vec4) (hn : 3 ≤ T.length) :
    verticesLimit (some v) T = some (limAt v T (T.length - 2) :: limitPts v T) := by
  have hs : sizeSub (limitPts v T).length 2 = T.length - 3 := by
    rw [length_limitPts]; unfold sizeSub; rw [if_pos (by omega)]; omega
  have hf : (limitPts v T).getD (T.length - 3) v = limAt v T (T.length - 2) := by
    rw [getD_limitPts v v T (T.length - 3) (by omega)]
    congr 1; omega
  simp only [verticesLimit, limitLoop_eq, hs, rd_some_eq, hf, List.insertIdx_zero]

theorem length_vl (v : vec4) (T : List vec4) (hn : 1 ≤ T.length) :
    (limAt v T (T.length - 2) :: limitPts v T).length = T.length := by
  simp [length_limitPts]; omega

theorem getD_vl (v d : vec4) (T : List vec4) (i : Nat) (h : i < T.length) :
    (limAt v T (T.length - 2) :: limitPts v T).getD i d = vlAt v T i := by
  cases i with
  | zero => simp [vlAt]
  | succ k =>
    have := getD_limitPts v d T k h
    simp only [List.getD_eq_getElem?_getD] at this
    simp [vlAt, this]

theorem nudgeLoop_spec (oob : Option vec4) (OG vl : List vec4) :
    ∀ (fuel start : Nat) (acc : List vec4),
      start + fuel ≤ acc.length → start + fuel ≤ OG.length → start + fuel ≤ vl.length →
      ∃ T1, forLoop (nudgeBody oob OG vl) fuel start acc = some T1 ∧
        T1.length = acc.length ∧
        (∀ j, start ≤ j → j < start + fuel →
          T1[j]? = some (acc.getD j ⟨0, 0, 0, 0⟩ +
            (OG.getD j ⟨0, 0, 0, 0⟩ - vl.getD j ⟨0, 0, 0, 0⟩))) ∧
        (∀ j, j < start ∨ start + fuel ≤ j → T1[j]? = acc[j]?) := by
  intro fuel
  induction fuel with
  | zero =>
    intro start acc _ _ _
    exact ⟨acc, rfl, rfl, fun j h1 h2 => by omega, fun j _ => rfl⟩
  | succ k ih =>
    intro start acc h1 h2 h3
    have hb : nudgeBody oob OG vl start acc =
        some (acc.set start (acc.getD start ⟨0, 0, 0, 0⟩ +
          (OG.getD start ⟨0, 0, 0, 0⟩ - vl.getD start ⟨0, 0, 0, 0⟩))) := by
      simp only [nudgeBody, rd_of_lt oob OG start (by omega), rd_of_lt oob vl start (by omega),
        getElem?_getD_of_lt acc start (by omega)]
    obtain ⟨T1, hT1, hl, hin, hout⟩ := ih (start + 1)
      (acc.set start (acc.getD start ⟨0, 0, 0, 0⟩ +
          (OG.getD start ⟨0, 0, 0, 0⟩ - vl.getD start ⟨0, 0, 0, 0⟩)))
      (by simp; omega) (by omega) (by omega)
    refine ⟨T1, by rw [forLoop, hb]; exact hT1, by simpa using hl, ?_, ?_⟩
    · intro j hj1 hj2
      by_cases hjs : j = start
      · subst hjs
        rw [hout j (Or.inl (by omega)), List.getElem?_set_self (by omega)]
      · rw [hin j (by omega) (by omega)]
        simp only [List.getD_eq_getElem?_getD, List.getElem?_set_ne (Ne.symm hjs)]
    · intro j hj
      rw [hout j (by omega), List.getElem?_set_ne (by omega)]

theorem InterpolateStep_eq (v : vec4) (W OG T : List vec4) (hn : 3 ≤ T.length)
    (hlen : OG.length = T.length) :
    ∃ T1, InterpolateStep (some v) ⟨W, OG, T⟩ =
        some ⟨refined (refined (refined (refined T1))), OG, T1⟩ ∧
      T1.length = T.length ∧
      ∀ j, j < T.length →
        T1[j]? = some (T.getD j ⟨0, 0, 0, 0⟩ + (OG.getD j ⟨0, 0, 0, 0⟩ - vlAt v T j)) := by
  have hvl := verticesLimit_eq v T hn
  have hlv := length_vl v T (by omega)
  obtain ⟨T1, hT1, hl, hin, _⟩ := nudgeLoop_spec (some v) OG
    (limAt v T (T.length - 2) :: limitPts v T) T.length 0 T (by omega) (by omega) (by omega)
  refine ⟨T1, ?_, hl, fun j hj => ?_⟩
  · have hs : sizeSub (limitPts v T).length 2 = T.length - 3 := by
      rw [length_limitPts]; unfold sizeSub; rw [if_pos (by omega)]; omega
    have hf : (limitPts v T).getD (T.length - 3) v = limAt v T (T.length - 2) := by
      rw [getD_limitPts v v T (T.length - 3) (by omega)]
      congr 1; omega
    simp only [InterpolateStep, limitLoop_eq, hs, rd_some_eq, hf, List.insertIdx_zero,
      Nat.sub_zero, hlv, hT1]
    exact subdivide4_eq (some v) T1 OG T1 (by omega)
  · rw [hin j (Nat.zero_le _) (by omega), getD_vl v _ T j hj]

/-! ## Under the strict reading `InterpolateStep` never returns -/

theorem forLoop_fault {σ : Type} (body : Nat → σ → Option σ) (i : Nat)
    (hi : ∀ s, body i s = none) :
    ∀ (fuel start : Nat) (s : σ), start ≤ i → i < start + fuel →
      forLoop body fuel start s = none := by
  intro fuel
  induction fuel with
  | zero => intro start s h1 h2; omega
  | succ k ih =>
    intro start s h1 h2
    rw [forLoop]
    cases hb : body start s with
    | none => rfl
    | some s1 =>
      have hne : start ≠ i := by
        intro h
        rw [h, hi s] at hb
        simp at hb
      exact ih (start + 1) s1 (by omega) (by omega)

theorem limitBody_fault (T acc : List vec4) :
    limitBody none T (T.length - 1) acc = none := by
  have h : T[T.length - 1 + 1]? = none := List.getElem?_eq_none (by omega)
  unfold limitBody
  have hr : rd none T (T.length - 1 + 1) = none := by simp [rd, h]
  rw [hr]
  split
  · rename_i h3; simp at h3
  · rfl

theorem InterpolateStep_strict (c : SubdivisionCurve) : InterpolateStep none c = none := by
  unfold InterpolateStep
  simp only
  by_cases hn : 2 ≤ c.InterpolateCtrlPoints.length
  · rw [forLoop_fault (limitBody none c.InterpolateCtrlPoints)
      (c.InterpolateCtrlPoints.length - 1) (limitBody_fault c.InterpolateCtrlPoints)
      (c.InterpolateCtrlPoints.length - 1) 1 [] (by omega) (by omega)]
  · have h0 : c.InterpolateCtrlPoints.length - 1 = 0 := by omega
    rw [h0]
    simp [forLoop, rd]

theorem InterpolateStep_empty (oob : Option vec4) (W OG : List vec4) :
    InterpolateStep oob ⟨W, OG, []⟩ = none := by
  cases oob with
  | none => exact InterpolateStep_strict _
  | some v => simp [InterpolateStep, forLoop, rd, nudgeBody]

/-! ## Sequences of `AddControlPoint` calls -/

theorem runCalls_append (oob : Option vec4) (cam : Camera) (l2 : List Call) :
    ∀ (l1 : List Call) (c : SubdivisionCurve),
      runCalls oob cam (l1 ++ l2) c =
        match runCalls oob cam l1 c with
        | none => none
        | some c1 => runCalls oob cam l2 c1 := by
  intro l1
  induction l1 with
  | nil => intro c; rfl
  | cons e es ih =>
    intro c
    simp only [List.cons_append, runCalls]
    cases e.run oob cam c with
    | none => rfl
    | some c1 => exact ih c1

theorem runCalls_two_adds (oob : Option vec4) (cam : Camera) (a b : ℚ × ℚ) :
    runCalls oob cam [Call.add a.1 a.2, Call.add b.1 b.2] SubdivisionCurve.empty =
      some ⟨[worldVertex cam a.1 a.2, worldVertex cam b.1 b.2,
              worldVertex cam a.1 a.2, worldVertex cam b.1 b.2],
            [worldVertex cam a.1 a.2, worldVertex cam b.1 b.2,
              worldVertex cam a.1 a.2, worldVertex cam b.1 b.2],
            [worldVertex cam a.1 a.2, worldVertex cam b.1 b.2,
              worldVertex cam a.1 a.2, worldVertex cam b.1 b.2]⟩ := by
  simp only [runCalls, Call.run, SubdivisionCurve.empty]
  rw [AddControlPoint_other oob cam [] [] [] a.1 a.2 (by simp) (by simp)]
  simp only [List.nil_append]
  rw [AddControlPoint_one]

theorem runCalls_adds (oob : Option vec4) (cam : Camera) (a b : ℚ × ℚ) (rest : List (ℚ × ℚ)) :
    ∃ c, runCalls oob cam ((a :: b :: rest).map (fun q => Call.add q.1 q.2))
        SubdivisionCurve.empty = some c ∧
      c.OGCtrlPoints = (a :: b :: rest).map (fun q => worldVertex cam q.1 q.2) ++
        [worldVertex cam a.1 a.2, worldVertex cam b.1 b.2] ∧
      (rest ≠ [] → c.wCurvePoints.length = 16 * (rest.length + 2) + 2) := by
  induction rest using List.reverseRecOn with
  | nil =>
    exact ⟨_, runCalls_two_adds oob cam a b, rfl, fun h => absurd rfl h⟩
  | append_singleton l x ih =>
    obtain ⟨⟨W, OG, T⟩, hrun, hOG, _⟩ := ih
    simp only at hOG
    have hlen : OG.length = l.length + 4 := by rw [hOG]; simp
    have hcalls : (a :: b :: (l ++ [x])).map (fun q => Call.add q.1 q.2) =
        (a :: b :: l).map (fun q => Call.add q.1 q.2) ++ [Call.add x.1 x.2] := by simp
    have hins : List.insertIdx (OG.length - 2) (worldVertex cam x.1 x.2) OG =
        (a :: b :: (l ++ [x])).map (fun q => worldVertex cam q.1 q.2) ++
          [worldVertex cam a.1 a.2, worldVertex cam b.1 b.2] := by
      rw [insertIdx_eq_take_cons_drop _ _ _ (by omega), hlen, hOG]
      have e : l.length + 4 - 2 =
          ((a :: b :: l).map (fun q => worldVertex cam q.1 q.2)).length := by simp
      rw [e, List.take_left, List.drop_left]
      simp
    refine ⟨⟨refined (refined (refined (refined
        (List.insertIdx (OG.length - 2) (worldVertex cam x.1 x.2) OG)))),
      List.insertIdx (OG.length - 2) (worldVertex cam x.1 x.2) OG,
      List.insertIdx (OG.length - 2) (worldVertex cam x.1 x.2) OG⟩, ?_, hins, fun _ => ?_⟩
    · rw [hcalls, runCalls_append, hrun]
      simp only [runCalls, Call.run]
      rw [AddControlPoint_ge4 oob cam W OG T x.1 x.2 (by omega)]
    · simp only [length_refined]
      rw [List.length_insertIdx _ _ (by omega), hlen]
      simp only [List.length_append, List.length_singleton, List.length_cons, List.length_nil]
      omega

/-! ## The event handlers and `pickedControlPoint` -/

theorem pickLoop_range (oob : Option vec4) (OG : List vec4) (q : vec4) :
    ∀ (fuel p : Nat) (r : Int), pickLoop oob OG q fuel p = some r →
      r = -1 ∨ ((p : Int) ≤ r ∧ r < (p : Int) + (fuel : Int)) := by
  intro fuel
  induction fuel with
  | zero =>
    intro p r h
    simp only [pickLoop, Option.some.injEq] at h
    exact Or.inl h.symm
  | succ k ih =>
    intro p r h
    rw [pickLoop] at h
    split at h
    · simp at h
    · split at h
      · simp only [Option.some.injEq] at h
        right; omega
      · rcases ih (p + 1) r h with h1 | h1
        · exact Or.inl h1
        · right; omega

theorem PickControlPoint_range (oob : Option vec4) (cam : Camera) (c c1 : SubdivisionCurve)
    (cX cY : ℚ) (r : Int) (h : PickControlPoint oob cam c cX cY = some (r, c1)) :
    c1 = c ∧ (r = -1 ∨ (0 ≤ r ∧ r.toNat < c.OGCtrlPoints.length)) := by
  unfold PickControlPoint at h
  simp only at h
  split at h
  · simp at h
  · rename_i r0 hr0
    simp only [Option.some.injEq, Prod.mk.injEq] at h
    obtain ⟨h1, h2⟩ := h
    subst h1
    refine ⟨h2.symm, ?_⟩
    rcases pickLoop_range oob _ _ _ 0 r0 hr0 with h3 | h3
    · exact Or.inl h3
    · right; omega

theorem AddControlPoint_grows (oob : Option vec4) (cam : Camera) (c c1 : SubdivisionCurve)
    (cX cY : ℚ) (h : AddControlPoint oob cam c cX cY = some c1) :
    c.OGCtrlPoints.length < c1.OGCtrlPoints.length := by
  obtain ⟨c2, h2, _, _, h3⟩ := AddControlPoint_total oob cam c cX cY
  rw [h2] at h
  simp only [Option.some.injEq] at h
  exact h ▸ h3

/-- The invariant of the event layer: `pickedControlPoint` is -1 or an index of the
control polygon. -/
theorem onMouse_picked (oob : Option vec4) (cam : Camera) (ww wh : Nat) (s s1 : Program)
    (button : Button) (state : ButtonState) (pX pY : Int)
    (hs : s.pickedControlPoint = -1 ∨
      (0 ≤ s.pickedControlPoint ∧ s.pickedControlPoint.toNat < s.curve.OGCtrlPoints.length))
    (h : onMouse oob cam ww wh s button state pX pY = some s1) :
    s1.pickedControlPoint = -1 ∨
      (0 ≤ s1.pickedControlPoint ∧
        s1.pickedControlPoint.toNat < s1.curve.OGCtrlPoints.length) := by
  cases button <;> cases state <;> simp [onMouse] at h
  · -- left button pressed
    cases ha : AddControlPoint oob cam s.curve (deviceX ww pX) (deviceY wh pY) with
    | none => simp [ha] at h
    | some c1 =>
      simp only [ha, Option.some.injEq] at h
      subst h
      have := AddControlPoint_grows oob cam _ _ _ _ ha
      rcases hs with hs | hs
      · exact Or.inl hs
      · exact Or.inr ⟨hs.1, by simp only; omega⟩
  · subst h; exact hs
  · subst h; exact hs
  · subst h; exact hs
  · -- right button pressed
    cases hp : PickControlPoint oob cam s.curve (deviceX ww pX) (deviceY wh pY) with
    | none => simp [hp] at h
    | some rc =>
      obtain ⟨r, c1⟩ := rc
      simp only [hp, Option.some.injEq] at h
      subst h
      obtain ⟨h1, h2⟩ := PickControlPoint_range oob cam _ _ _ _ _ hp
      subst h1
      exact h2
  · -- right button released
    subst h
    exact Or.inl rfl

theorem onMouseMotion_picked (oob : Option vec4) (cam : Camera) (ww wh : Nat)
    (s s1 : Program) (pX pY : Int)
    (hs : s.pickedControlPoint = -1 ∨
      (0 ≤ s.pickedControlPoint ∧ s.pickedControlPoint.toNat < s.curve.OGCtrlPoints.length))
    (h : onMouseMotion oob cam ww wh s pX pY = some s1) :
    s1.pickedControlPoint = -1 ∨
      (0 ≤ s1.pickedControlPoint ∧
        s1.pickedControlPoint.toNat < s1.curve.OGCtrlPoints.length) := by
  unfold onMouseMotion at h
  simp only at h
  split at h
  · split at h
    · simp at h
    · rename_i c1 hc1
      simp only [Option.some.injEq] at h
      subst h
      obtain ⟨_, _, h3, _⟩ := MoveControlPoint_frame oob cam _ _ _ _ _ hc1
      rcases hs with hs | hs
      · exact Or.inl hs
      · refine Or.inr ⟨hs.1, ?_⟩
        simp only [h3, List.length_set]
        exact hs.2
  · simp only [Option.some.injEq] at h
    subst h
    exact hs

theorem onKeyboard_picked (oob : Option vec4) (s s1 : Program)
    (hs : s.pickedControlPoint = -1 ∨
      (0 ≤ s.pickedControlPoint ∧ s.pickedControlPoint.toNat < s.curve.OGCtrlPoints.length))
    (h : onKeyboard oob s = some s1) :
    s1.pickedControlPoint = -1 ∨
      (0 ≤ s1.pickedControlPoint ∧
        s1.pickedControlPoint.toNat < s1.curve.OGCtrlPoints.length) := by
  unfold onKeyboard at h
  split at h
  · simp at h
  · rename_i c1 hc1
    simp only [Option.some.injEq] at h
    subst h
    simp only [(InterpolateStep_frame oob _ _ hc1).1]
    exact hs

theorem runEvents_picked (oob : Option vec4) (cam : Camera) (ww wh : Nat) :
    ∀ (events : List Event) (s s1 : Program),
      (s.pickedControlPoint = -1 ∨
        (0 ≤ s.pickedControlPoint ∧
          s.pickedControlPoint.toNat < s.curve.OGCtrlPoints.length)) →
      runEvents oob cam ww wh events s = some s1 →
      (s1.pickedControlPoint = -1 ∨
        (0 ≤ s1.pickedControlPoint ∧
          s1.pickedControlPoint.toNat < s1.curve.OGCtrlPoints.length)) := by
  intro events
  induction events with
  | nil =>
    intro s s1 hs h
    simp only [runEvents, Option.some.injEq] at h
    exact h ▸ hs
  | cons e es ih =>
    intro s s1 hs h
    rw [runEvents] at h
    cases he : e.handle oob cam ww wh s with
    | none => rw [he] at h; simp at h
    | some s2 =>
      rw [he] at h
      refine ih s2 s1 ?_ h
      cases e with
      | mouse button state pX pY => exact onMouse_picked oob cam ww wh s s2 _ _ _ _ hs he
      | motion pX pY => exact onMouseMotion_picked oob cam ww wh s s2 _ _ hs he
      | keyboard => exact onKeyboard_picked oob s s2 hs he

/-! ## Rounding to binary32 -/

theorem roundHalfEven_intCast (n : ℤ) : roundHalfEven (n : ℚ) = n := by
  simp [roundHalfEven]

theorem roundHalfEven_bounds (r : ℚ) : ⌊r⌋ ≤ roundHalfEven r ∧ roundHalfEven r ≤ ⌊r⌋ + 1 := by
  unfold roundHalfEven
  split_ifs <;> constructor <;> omega

theorem roundHalfEven_mono (r s : ℚ) (h : r ≤ s) : roundHalfEven r ≤ roundHalfEven s := by
  have hfl : ⌊r⌋ ≤ ⌊s⌋ := Int.floor_mono h
  rcases lt_or_eq_of_le hfl with hlt | heq
  · have h1 := (roundHalfEven_bounds r).2
    have h2 := (roundHalfEven_bounds s).1
    omega
  · unfold roundHalfEven
    rw [heq]
    split_ifs with a1 a2 a3 a4 a5 a6 a7 a8 a9 <;>
      first
        | omega
        | (exfalso; linarith)

theorem roundHalfEven_neg (r : ℚ) : roundHalfEven (-r) = -roundHalfEven r := by
  by_cases hint : (⌊r⌋ : ℚ) = r
  · rw [← hint, ← Int.cast_neg, roundHalfEven_intCast, roundHalfEven_intCast]
  · have h1 : (⌊r⌋ : ℚ) ≤ r := Int.floor_le r
    have h2 : r < ⌊r⌋ + 1 := Int.lt_floor_add_one r
    have h3 : (⌊r⌋ : ℚ) < r := lt_of_le_of_ne h1 hint
    have hf : ⌊-r⌋ = -⌊r⌋ - 1 := by
      rw [Int.floor_eq_iff]
      push_cast
      constructor <;> linarith
    unfold roundHalfEven
    rw [hf]
    push_cast
    split_ifs with a1 a2 a3 a4 a5 a6 a7 a8 a9 <;>
      first
        | omega
        | (exfalso; linarith)

theorem ulp_pos (e : ℤ) : (0 : ℚ) < (2 : ℚ) ^ e := zpow_pos (by norm_num) e

theorem exponent32_neg (x : ℚ) : exponent32 (-x) = exponent32 x := by
  simp [exponent32]

theorem exponent32_ge (x : ℚ) : -126 ≤ exponent32 x := le_max_right _ _

theorem fl32_zero : fl32 0 = 0 := by
  simp [fl32, roundHalfEven]

theorem fl32_neg (x : ℚ) : fl32 (-x) = -fl32 x := by
  unfold fl32
  rw [exponent32_neg, neg_div, roundHalfEven_neg]
  push_cast
  ring

theorem two_zpow_succ (e : ℤ) : (2 : ℚ) ^ (e + 1) = 16777216 * (2 : ℚ) ^ (e - 23) := by
  rw [show (16777216 : ℚ) = (2 : ℚ) ^ (24 : ℤ) from by norm_num, ← zpow_add₀ (by norm_num)]
  congr 1; ring

theorem two_zpow_self (e : ℤ) : (2 : ℚ) ^ e = 8388608 * (2 : ℚ) ^ (e - 23) := by
  rw [show (8388608 : ℚ) = (2 : ℚ) ^ (23 : ℤ) from by norm_num, ← zpow_add₀ (by norm_num)]
  congr 1; ring

/-- A value `m * 2^(e-23)` with `0 < m ≤ 2^24`, and with `2^23 ≤ m` unless `e = -126`, is
a binary32 value: rounding leaves it as it is. -/
theorem fl32_of_mantissa_pos (m e : ℤ) (hm0 : 0 < m) (hm : m ≤ 16777216) (he : -126 ≤ e)
    (hnorm : 8388608 ≤ m ∨ e = -126) :
    fl32 ((m : ℚ) * (2 : ℚ) ^ (e - 23)) = (m : ℚ) * (2 : ℚ) ^ (e - 23) := by
  have hq := ulp_pos (e - 23)
  have hy : (0 : ℚ) < (m : ℚ) * (2 : ℚ) ^ (e - 23) := mul_pos (by exact_mod_cast hm0) hq
  have h2 : (1 : ℕ) < 2 := by norm_num
  by_cases htop : m = 16777216
  · have hy2 : (m : ℚ) * (2 : ℚ) ^ (e - 23) = (2 : ℚ) ^ (e + 1) := by
      rw [htop, two_zpow_succ]; norm_num
    have hexp : exponent32 ((m : ℚ) * (2 : ℚ) ^ (e - 23)) = e + 1 := by
      rw [hy2, exponent32, abs_of_pos (ulp_pos _)]
      have := Int.log_zpow (R := ℚ) h2 (e + 1)
      simp only [Nat.cast_ofNat] at this
      rw [this]
      exact max_eq_left (by omega)
    unfold fl32
    rw [hexp, hy2]
    have hdiv : (2 : ℚ) ^ (e + 1) / (2 : ℚ) ^ (e + 1 - 23) = ((8388608 : ℤ) : ℚ) := by
      rw [two_zpow_self (e + 1), mul_div_assoc, div_self (ulp_pos _).ne']
      norm_num
    rw [hdiv, roundHalfEven_intCast, two_zpow_self (e + 1)]
    norm_num
  · have hlt : m < 16777216 := lt_of_le_of_ne hm htop
    have hupper : (m : ℚ) * (2 : ℚ) ^ (e - 23) < (2 : ℚ) ^ (e + 1) := by
      rw [two_zpow_succ]
      apply mul_lt_mul_of_pos_right _ hq
      exact_mod_cast hlt
    have hlog_lt : Int.log 2 ((m : ℚ) * (2 : ℚ) ^ (e - 23)) < e + 1 := by
      rw [← Int.lt_zpow_iff_log_lt h2 hy]
      simpa using hupper
    have hexp : exponent32 ((m : ℚ) * (2 : ℚ) ^ (e - 23)) = e := by
      rw [exponent32, abs_of_pos hy]
      rcases hnorm with hn | hsub
      · have hlower : (2 : ℚ) ^ e ≤ (m : ℚ) * (2 : ℚ) ^ (e - 23) := by
          rw [two_zpow_self]
          apply mul_le_mul_of_nonneg_right _ hq.le
          exact_mod_cast hn
        have hle : e ≤ Int.log 2 ((m : ℚ) * (2 : ℚ) ^ (e - 23)) := by
          rw [← Int.zpow_le_iff_le_log h2 hy]
          simpa using hlower
        have : Int.log 2 ((m : ℚ) * (2 : ℚ) ^ (e - 23)) = e := by omega
        rw [this]
        exact max_eq_left he
      · subst hsub
        exact max_eq_right (by omega)
    unfold fl32
    rw [hexp, mul_div_assoc, div_self hq.ne', mul_one, roundHalfEven_intCast]


theorem exponent32_log_le (x : ℚ) : Int.log 2 |x| ≤ exponent32 x := le_max_left _ _

theorem mantissa_le (x : ℚ) (hx : 0 < x) :
    roundHalfEven (x / (2 : ℚ) ^ (exponent32 x - 23)) ≤ 16777216 := by
  have hq := ulp_pos (exponent32 x - 23)
  have h1 : x < (2 : ℚ) ^ (Int.log 2 x + 1) := by
    have := Int.lt_zpow_succ_log_self (R := ℚ) (b := 2) (by norm_num) x
    simpa using this
  have h2 : (2 : ℚ) ^ (Int.log 2 x + 1) ≤ (2 : ℚ) ^ (exponent32 x + 1) := by
    apply zpow_le_zpow_right₀ (by norm_num)
    have := exponent32_log_le x
    rw [abs_of_pos hx] at this
    omega
  have h3 : x / (2 : ℚ) ^ (exponent32 x - 23) ≤ ((16777216 : ℤ) : ℚ) := by
    rw [div_le_iff₀ hq]
    have := two_zpow_succ (exponent32 x)
    push_cast
    linarith
  have := roundHalfEven_mono _ _ h3
  rwa [roundHalfEven_intCast] at this

theorem mantissa_ge (x : ℚ) (hx : 0 < x) (he : exponent32 x ≠ -126) :
    8388608 ≤ roundHalfEven (x / (2 : ℚ) ^ (exponent32 x - 23)) := by
  have hq := ulp_pos (exponent32 x - 23)
  have hlog : exponent32 x = Int.log 2 x := by
    have h1 := exponent32_ge x
    unfold exponent32 at he h1 ⊢
    rw [abs_of_pos hx] at he h1 ⊢
    rcases max_cases (Int.log 2 x) (-126) with ⟨h, _⟩ | ⟨h, _⟩
    · exact h
    · exact absurd h he
  have h1 : (2 : ℚ) ^ (exponent32 x) ≤ x := by
    rw [hlog]
    have := Int.zpow_log_le_self (R := ℚ) (b := 2) (by norm_num) hx
    simpa using this
  have h3 : ((8388608 : ℤ) : ℚ) ≤ x / (2 : ℚ) ^ (exponent32 x - 23) := by
    rw [le_div_iff₀ hq]
    have := two_zpow_self (exponent32 x)
    push_cast
    linarith
  have := roundHalfEven_mono _ _ h3
  rwa [roundHalfEven_intCast] at this

theorem mantissa_nonneg (x : ℚ) (hx : 0 ≤ x) :
    0 ≤ roundHalfEven (x / (2 : ℚ) ^ (exponent32 x - 23)) := by
  have hq := ulp_pos (exponent32 x - 23)
  have h0 : roundHalfEven 0 ≤ roundHalfEven (x / (2 : ℚ) ^ (exponent32 x - 23)) :=
    roundHalfEven_mono _ _ (div_nonneg hx hq.le)
  rwa [show roundHalfEven 0 = 0 from by simp [roundHalfEven]] at h0

/-- Rounding twice is rounding once: a rounded value is a binary32 value. -/
theorem fl32_idem (x : ℚ) : fl32 (fl32 x) = fl32 x := by
  have hpos : ∀ y : ℚ, 0 < y → fl32 (fl32 y) = fl32 y := by
    intro y hy
    have hm0 := mantissa_nonneg y hy.le
    rcases lt_or_eq_of_le hm0 with hmpos | hmz
    · have hnorm : 8388608 ≤ roundHalfEven (y / (2 : ℚ) ^ (exponent32 y - 23)) ∨
          exponent32 y = -126 := by
        by_cases he : exponent32 y = -126
        · exact Or.inr he
        · exact Or.inl (mantissa_ge y hy he)
      have := fl32_of_mantissa_pos _ (exponent32 y) hmpos (mantissa_le y hy)
        (exponent32_ge y) hnorm
      exact this
    · have : fl32 y = 0 := by
        unfold fl32
        rw [← hmz]
        simp
      rw [this, fl32_zero]
  rcases lt_trichotomy x 0 with hneg | hz | hp
  · have := hpos (-x) (by linarith)
    rw [fl32_neg, fl32_neg] at this
    linarith
  · rw [hz, fl32_zero, fl32_zero]
  · exact hpos x hp

theorem length_halfPtsR (rnd : ℚ → ℚ) (S : List vec4) : (halfPtsR rnd S).length = S.length - 1 := by
  simp [halfPtsR]

theorem length_newPtsR (rnd : ℚ → ℚ) (S : List vec4) : (newPtsR rnd S).length = S.length - 2 := by
  simp [newPtsR]; omega

theorem getD_halfPtsR (rnd : ℚ → ℚ) (S : List vec4) (k : Nat) (h : k + 1 < S.length) :
    (halfPtsR rnd S).getD k ⟨0, 0, 0, 0⟩ = midAtR rnd S k := by
  have : k < S.length - 1 := by omega
  simp [halfPtsR, List.getElem?_range' 0 1 this]

theorem getD_newPtsR (rnd : ℚ → ℚ) (S : List vec4) (k : Nat) (h : k + 2 < S.length) :
    (newPtsR rnd S).getD k ⟨0, 0, 0, 0⟩ = smoothAtR rnd S (k + 1) := by
  have : k < S.length - 1 - 1 := by omega
  simp [newPtsR, List.getElem?_range' 1 1 this, Nat.add_comm]

theorem length_refinedR (rnd : ℚ → ℚ) (S : List vec4) : (refinedR rnd S).length = 2 * (S.length - 2) + 2 := by
  simp [refinedR, length_weave, length_newPtsR]

theorem subdivisionRoundR_eq (rnd : ℚ → ℚ) (oob : Option vec4) (S : List vec4) (hn : 3 ≤ S.length) :
    subdivisionRoundR rnd oob S = some (refinedR rnd S) := by
  have hs : sizeSub S.length 1 = S.length - 1 := by
    unfold sizeSub; rw [if_pos (by omega)]
  have hH : forLoop (halfBodyR rnd oob S) (S.length - 1) 0 [] = some (halfPtsR rnd S) := by
    rw [forLoop_collect_one (S.length - 1) 0 [] (g := midAtR rnd S)]
    · simp [halfPtsR]
    · intro i a _ hi
      simp [halfBodyR, rd_of_lt oob S i (by omega), rd_of_lt oob S (i + 1) (by omega), midAtR]
  have hN : forLoop (newBodyR rnd oob S) (S.length - 1 - 1) 1 [] = some (newPtsR rnd S) := by
    rw [forLoop_collect_one (S.length - 1 - 1) 1 [] (g := smoothAtR rnd S)]
    · simp [newPtsR]
    · intro i a h1 hi
      simp [newBodyR, rd_of_lt oob S (i - 1) (by omega), rd_of_lt oob S i (by omega),
        rd_of_lt oob S (i + 1) (by omega), smoothAtR]
  have hW : forLoop (weaveBody oob (halfPtsR rnd S) (newPtsR rnd S)) (newPtsR rnd S).length 0 []
      = some (weave (halfPtsR rnd S) (newPtsR rnd S)) := by
    rw [forLoop_collect (newPtsR rnd S).length 0 []
      (f := fun i => [(halfPtsR rnd S).getD i ⟨0, 0, 0, 0⟩, (newPtsR rnd S).getD i ⟨0, 0, 0, 0⟩])]
    · simp [weave]
    · intro i a _ hi
      have hi2 : i < (newPtsR rnd S).length := by omega
      have hi1 : i < (halfPtsR rnd S).length := by
        rw [length_halfPtsR]; rw [length_newPtsR] at hi2; omega
      simp [weaveBody, rd_of_lt oob _ i hi1, rd_of_lt oob _ i hi2]
  have h0 : 0 < (halfPtsR rnd S).length := by rw [length_halfPtsR]; omega
  have h1 : 0 < (newPtsR rnd S).length := by rw [length_newPtsR]; omega
  unfold subdivisionRoundR
  simp only [hs, Nat.sub_zero, hH, hN, hW, rd_of_lt oob _ 0 h0, rd_of_lt oob _ 0 h1]
  simp [refinedR]

theorem getElem?_refinedR (rnd : ℚ → ℚ) (S : List vec4) (k : Nat) (h : k + 2 < S.length) :
    (refinedR rnd S)[2 * k]? = some (midAtR rnd S k) ∧
    (refinedR rnd S)[2 * k + 1]? = some (smoothAtR rnd S (k + 1)) := by
  have hk : k < (newPtsR rnd S).length := by rw [length_newPtsR]; omega
  have hp := getElem?_pairs (fun i => (halfPtsR rnd S).getD i ⟨0, 0, 0, 0⟩)
    (fun i => (newPtsR rnd S).getD i ⟨0, 0, 0, 0⟩) (newPtsR rnd S).length k hk
  have hl := length_weave (halfPtsR rnd S) (newPtsR rnd S)
  unfold refinedR
  constructor
  · rw [List.getElem?_append_left (by omega)]
    rw [← getD_halfPtsR rnd S k (by omega)]; exact hp.1
  · rw [List.getElem?_append_left (by omega)]
    rw [← getD_newPtsR rnd S k (by omega)]; exact hp.2

theorem getElem?_refinedR_wrap (rnd : ℚ → ℚ) (S : List vec4) (hn : 3 ≤ S.length) :
    (refinedR rnd S)[2 * S.length - 4]? = some (midAtR rnd S 0) ∧
    (refinedR rnd S)[2 * S.length - 3]? = some (smoothAtR rnd S 1) := by
  have hl := length_weave (halfPtsR rnd S) (newPtsR rnd S)
  rw [length_newPtsR] at hl
  unfold refinedR
  constructor
  · rw [List.getElem?_append_right (by omega), hl]
    have : 2 * S.length - 4 - 2 * (S.length - 2) = 0 := by omega
    rw [this, getD_halfPtsR rnd S 0 (by omega)]; rfl
  · rw [List.getElem?_append_right (by omega), hl]
    have : 2 * S.length - 3 - 2 * (S.length - 2) = 1 := by omega
    rw [this, getD_newPtsR rnd S 0 (by omega)]; rfl

theorem getD_map_of_lt (G : vec4 → vec4) (S : List vec4) (i : Nat) (h : i < S.length) :
    (S.map G).getD i ⟨0, 0, 0, 0⟩ = G (S.getD i ⟨0, 0, 0, 0⟩) := by
  simp [List.getElem?_eq_getElem h]

/-- A round of subdivision with rounding commutes with every map of the points that
commutes with the two averages as computed. -/
theorem refinedR_map (rnd : ℚ → ℚ) (G : vec4 → vec4) (S : List vec4) (hn : 3 ≤ S.length)
    (hmid : ∀ a b, midR rnd (G a) (G b) = G (midR rnd a b))
    (hsm : ∀ a b d, smoothR rnd (G a) (G b) (G d) = G (smoothR rnd a b d)) :
    refinedR rnd (S.map G) = (refinedR rnd S).map G := by
  have hlm : (S.map G).length = S.length := List.length_map _ _
  have hm : ∀ k, k + 1 < S.length → midAtR rnd (S.map G) k = G (midAtR rnd S k) := by
    intro k hk
    unfold midAtR
    rw [getD_map_of_lt G S k (by omega), getD_map_of_lt G S (k + 1) hk, hmid]
  have hs : ∀ k, k + 2 < S.length →
      smoothAtR rnd (S.map G) (k + 1) = G (smoothAtR rnd S (k + 1)) := by
    intro k hk
    unfold smoothAtR
    rw [getD_map_of_lt G S (k + 1 - 1) (by omega), getD_map_of_lt G S (k + 1) (by omega),
      getD_map_of_lt G S (k + 1 + 1) (by omega), hsm]
  apply List.ext_getElem?
  intro j
  rw [List.getElem?_map]
  obtain ⟨k, hk | hk⟩ := Nat.even_or_odd' j
  · subst hk
    rcases Nat.lt_trichotomy (k + 2) S.length with hlt | heq | hgt
    · rw [(getElem?_refinedR rnd _ k (by omega)).1, (getElem?_refinedR rnd S k hlt).1,
        hm k (by omega)]
      rfl
    · have e : 2 * k = 2 * S.length - 4 := by omega
      have e2 : 2 * k = 2 * (S.map G).length - 4 := by omega
      have w1 := (getElem?_refinedR_wrap rnd S hn).1
      have w2 := (getElem?_refinedR_wrap rnd (S.map G) (by omega)).1
      rw [← e] at w1
      rw [← e2] at w2
      rw [w1, w2, hm 0 (by omega)]
      rfl
    · rw [List.getElem?_eq_none (by rw [length_refinedR]; omega),
        List.getElem?_eq_none (by rw [length_refinedR]; omega)]
      rfl
  · subst hk
    rcases Nat.lt_trichotomy (k + 2) S.length with hlt | heq | hgt
    · rw [(getElem?_refinedR rnd _ k (by omega)).2, (getElem?_refinedR rnd S k hlt).2,
        hs k (by omega)]
      rfl
    · have e : 2 * k + 1 = 2 * S.length - 3 := by omega
      have e2 : 2 * k + 1 = 2 * (S.map G).length - 3 := by omega
      have w1 := (getElem?_refinedR_wrap rnd S hn).2
      have w2 := (getElem?_refinedR_wrap rnd (S.map G) (by omega)).2
      rw [← e] at w1
      rw [← e2] at w2
      rw [w1, w2, hs 0 (by omega)]
      rfl
    · rw [List.getElem?_eq_none (by rw [length_refinedR]; omega),
        List.getElem?_eq_none (by rw [length_refinedR]; omega)]
      rfl

theorem midR_neg (a b : vec4) :
    midR fl32 (vec4.neg a) (vec4.neg b) = vec4.neg (midR fl32 a b) := by
  simp only [midR, vec4.sdivR, vec4.addR, vec4.neg, vec4.mk.injEq]
  refine ⟨?_, ?_, ?_, ?_⟩ <;>
    rw [← neg_add, fl32_neg, neg_div, fl32_neg]

theorem smoothR_neg (a b d : vec4) :
    smoothR fl32 (vec4.neg a) (vec4.neg b) (vec4.neg d) = vec4.neg (smoothR fl32 a b d) := by
  simp only [smoothR, vec4.sdivR, vec4.addR, vec4.smulR, vec4.neg, vec4.mk.injEq]
  refine ⟨?_, ?_, ?_, ?_⟩ <;>
    rw [neg_mul, fl32_neg, ← neg_add, fl32_neg, ← neg_add, fl32_neg, neg_div, fl32_neg]

theorem refinedR_neg (S : List vec4) (hn : 3 ≤ S.length) :
    refinedR fl32 (S.map vec4.neg) = (refinedR fl32 S).map vec4.neg :=
  refinedR_map fl32 vec4.neg S hn midR_neg smoothR_neg

theorem getElem?_refinedR_replicate (rnd : ℚ → ℚ) (n : Nat) (p : vec4) (hn : 3 ≤ n) (k : Nat)
    (hk : k < n - 1) :
    (refinedR rnd (List.replicate n p))[2 * k]? = some (midR rnd p p) ∧
    (refinedR rnd (List.replicate n p))[2 * k + 1]? = some (smoothR rnd p p p) := by
  have hl : (List.replicate n p).length = n := List.length_replicate _ _
  have hg : ∀ i, i < n → (List.replicate n p).getD i ⟨0, 0, 0, 0⟩ = p := by
    intro i hi
    simp [List.getElem?_replicate, hi]
  have hm : ∀ i, i + 1 < n → midAtR rnd (List.replicate n p) i = midR rnd p p := by
    intro i hi
    rw [midAtR, hg i (by omega), hg (i + 1) hi]
  have hs : ∀ i, i + 2 < n → smoothAtR rnd (List.replicate n p) (i + 1) = smoothR rnd p p p := by
    intro i hi
    rw [smoothAtR, hg (i + 1 - 1) (by omega), hg (i + 1) (by omega), hg (i + 1 + 1) (by omega)]
  by_cases h : k + 2 < n
  · have := getElem?_refinedR rnd (List.replicate n p) k (by omega)
    rw [hm k (by omega), hs k h] at this
    exact this
  · have := getElem?_refinedR_wrap rnd (List.replicate n p) (by omega)
    rw [hl, hm 0 (by omega), hs 0 (by omega)] at this
    have e1 : 2 * k = 2 * n - 4 := by omega
    have e2 : 2 * k + 1 = 2 * n - 3 := by omega
    rw [e2, e1]
    exact this

theorem fl32_one : fl32 1 = 1 := by decide!

theorem fl32_ten : fl32 10 = 10 := by decide!

theorem mulR_V_Vinv (cam : Camera) (hx : fl32 cam.wCx = cam.wCx) (hy : fl32 cam.wCy = cam.wCy) :
    mat4.mulR fl32 cam.V cam.Vinv = mat4.identity ∧
    mat4.mulR fl32 cam.Vinv cam.V = mat4.identity := by
  constructor <;>
    simp [mat4.mulR, vec4.mulMatR, vec4.addR, vec4.smulR, Camera.V, Camera.Vinv, mat4.identity,
      fl32_zero, fl32_one, fl32_neg, hx, hy]

theorem worldVertexR_camera (cX cY : ℚ) :
    worldVertexR fl32 camera cX cY = ⟨fl32 (cX * 10), fl32 (cY * 10), 0, 1⟩ := by
  have h20 : (20 : ℚ) / 2 = 10 := by norm_num
  simp [worldVertexR, vec4.mulMatR, vec4.addR, vec4.smulR, Camera.PinvR, Camera.Vinv, camera,
    Camera.Animate, h20, fl32_zero, fl32_one, fl32_ten, fl32_idem, mul_comm]

/-! ## The limit points of the interpolation step, with rounding -/

/-- C1: on a `wCurvePoints` `S` of `n ≥ 3` points, `nextSubdivisionCalculate` returns,
touches nothing but `wCurvePoints`, and leaves there the `R` with
`R[2k] = (S[k] + S[k+1]) / 2` and `R[2k+1] = (S[k] + 6 S[k+1] + S[k+2]) / 8` for every
`k ≤ n - 3`, then `R[2n-4] = (S[0] + S[1]) / 2` and `R[2n-3] = (S[0] + 6 S[1] + S[2]) / 8`,
and nothing else (`R` has `2n - 2` entries). -/
theorem nextSubdivisionCalculate_entries (oob : Option vec4) (c : SubdivisionCurve)
    (hn : 3 ≤ c.wCurvePoints.length) :
    ∃ R, nextSubdivisionCalculate oob c = some { c with wCurvePoints := R } ∧
      R.length = 2 * c.wCurvePoints.length - 2 ∧
      (∀ k, k ≤ c.wCurvePoints.length - 3 → ∃ a b d : vec4,
        c.wCurvePoints[k]? = some a ∧ c.wCurvePoints[k + 1]? = some b ∧
        c.wCurvePoints[k + 2]? = some d ∧
        R[2 * k]? = some ((a + b) / (2 : ℚ)) ∧
        R[2 * k + 1]? = some ((a + (6 : ℚ) * b + d) / (8 : ℚ))) ∧
      (∃ a b d : vec4,
        c.wCurvePoints[0]? = some a ∧ c.wCurvePoints[1]? = some b ∧
        c.wCurvePoints[2]? = some d ∧
        R[2 * c.wCurvePoints.length - 4]? = some ((a + b) / (2 : ℚ)) ∧
        R[2 * c.wCurvePoints.length - 3]? = some ((a + (6 : ℚ) * b + d) / (8 : ℚ))) := by
  obtain ⟨S, OG, T⟩ := c
  simp only at hn ⊢
  refine ⟨refined S, nextSubdivisionCalculate_eq oob S OG T hn, ?_, ?_, ?_⟩
  · rw [length_refined]; omega
  · intro k hk
    have h := getElem?_refined S k (by omega)
    exact ⟨_, _, _, getElem?_getD_of_lt S k (by omega), getElem?_getD_of_lt S (k + 1) (by omega),
      getElem?_getD_of_lt S (k + 2) (by omega), h.1, h.2⟩
  · have h := getElem?_refined_wrap S hn
    exact ⟨_, _, _, getElem?_getD_of_lt S 0 (by omega), getElem?_getD_of_lt S 1 (by omega),
      getElem?_getD_of_lt S 2 (by omega), h.1, h.2⟩

/-- Witness for C1: the three points (0,0), (2,0), (1,2) refine to four points. -/
theorem nextSubdivisionCalculate_entries_witness :
    3 ≤ (SubdivisionCurve.mk [⟨0, 0, 0, 1⟩, ⟨2, 0, 0, 1⟩, ⟨1, 2, 0, 1⟩] [] []).wCurvePoints.length ∧
    ∃ R, nextSubdivisionCalculate none ⟨[⟨0, 0, 0, 1⟩, ⟨2, 0, 0, 1⟩, ⟨1, 2, 0, 1⟩], [], []⟩
        = some ⟨R, [], []⟩ ∧ R.length = 4 := by
  refine ⟨by decide, ?_⟩
  obtain ⟨R, h, hl, _⟩ := nextSubdivisionCalculate_entries none
    ⟨[⟨0, 0, 0, 1⟩, ⟨2, 0, 0, 1⟩, ⟨1, 2, 0, 1⟩], [], []⟩ (by decide)
  exact ⟨R, h, hl⟩

/-- C2: on a `wCurvePoints` of `n ≥ 3` points, `nextSubdivisionCalculate` returns and
leaves exactly `2 * (n - 2) + 2` points there. -/
theorem nextSubdivisionCalculate_length (oob : Option vec4) (c : SubdivisionCurve)
    (hn : 3 ≤ c.wCurvePoints.length) :
    ∃ c1, nextSubdivisionCalculate oob c = some c1 ∧
      c1.wCurvePoints.length = 2 * (c.wCurvePoints.length - 2) + 2 := by
  obtain ⟨S, OG, T⟩ := c
  exact ⟨_, nextSubdivisionCalculate_eq oob S OG T hn, length_refined S⟩

/-- Witness for C2: five points refine to eight. -/
theorem nextSubdivisionCalculate_length_witness :
    3 ≤ (SubdivisionCurve.mk
      [⟨0, 0, 0, 1⟩, ⟨2, 0, 0, 1⟩, ⟨1, 2, 0, 1⟩, ⟨0, 0, 0, 1⟩, ⟨2, 0, 0, 1⟩] [] []).wCurvePoints.length ∧
    ∃ c1, nextSubdivisionCalculate none
        ⟨[⟨0, 0, 0, 1⟩, ⟨2, 0, 0, 1⟩, ⟨1, 2, 0, 1⟩, ⟨0, 0, 0, 1⟩, ⟨2, 0, 0, 1⟩], [], []⟩ = some c1 ∧
      c1.wCurvePoints.length = 8 := by
  refine ⟨by decide, ?_⟩
  exact nextSubdivisionCalculate_length none
    ⟨[⟨0, 0, 0, 1⟩, ⟨2, 0, 0, 1⟩, ⟨1, 2, 0, 1⟩, ⟨0, 0, 0, 1⟩, ⟨2, 0, 0, 1⟩], [], []⟩ (by decide)

/-! ## `AddControlPoint` -/

/-- C3: on a control polygon `C` of `n ≥ 4` points, `AddControlPoint` returns; the new
polygon is `C[0..n-2)`, then the new world point, then `C[n-2]`, `C[n-1]`; and
`wCurvePoints` is what four successive rounds of subdivision make of that new polygon. -/
theorem AddControlPoint_insert (oob : Option vec4) (cam : Camera) (c : SubdivisionCurve)
    (cX cY : ℚ) (hn : 4 ≤ c.OGCtrlPoints.length) :
    ∃ (c1 : SubdivisionCurve) (a b : vec4) (R1 R2 R3 : List vec4),
      AddControlPoint oob cam c cX cY = some c1 ∧
      c.OGCtrlPoints[c.OGCtrlPoints.length - 2]? = some a ∧
      c.OGCtrlPoints[c.OGCtrlPoints.length - 1]? = some b ∧
      c1.OGCtrlPoints =
        c.OGCtrlPoints.take (c.OGCtrlPoints.length - 2) ++ [worldVertex cam cX cY, a, b] ∧
      subdivisionRound oob c1.OGCtrlPoints = some R1 ∧
      subdivisionRound oob R1 = some R2 ∧
      subdivisionRound oob R2 = some R3 ∧
      subdivisionRound oob R3 = some c1.wCurvePoints := by
  obtain ⟨W, OG, T⟩ := c
  simp only at hn ⊢
  obtain ⟨a, b, ha, hb, hd⟩ := drop_last_two OG (by omega)
  have hl : 3 ≤ (List.insertIdx (OG.length - 2) (worldVertex cam cX cY) OG).length := by
    rw [List.length_insertIdx _ _ (by omega)]; omega
  have h1 := length_refined_ge _ hl
  have h2 := length_refined_ge _ h1
  have h3 := length_refined_ge _ h2
  refine ⟨_, a, b, _, _, _, AddControlPoint_ge4 oob cam W OG T cX cY hn, ha, hb, ?_,
    subdivisionRound_eq oob _ hl, subdivisionRound_eq oob _ h1, subdivisionRound_eq oob _ h2,
    subdivisionRound_eq oob _ h3⟩
  simp only
  rw [insertIdx_eq_take_cons_drop _ _ _ (by omega), hd]

/-- Witness for C3: adding the world point (1,2) to [(0,0),(2,0),(0,0),(2,0)] gives
[(0,0),(2,0),(1,2),(0,0),(2,0)]. -/
theorem AddControlPoint_insert_witness :
    4 ≤ (SubdivisionCurve.mk []
      [⟨0, 0, 0, 1⟩, ⟨2, 0, 0, 1⟩, ⟨0, 0, 0, 1⟩, ⟨2, 0, 0, 1⟩] []).OGCtrlPoints.length ∧
    ∃ c1, AddControlPoint none camera
        ⟨[], [⟨0, 0, 0, 1⟩, ⟨2, 0, 0, 1⟩, ⟨0, 0, 0, 1⟩, ⟨2, 0, 0, 1⟩], []⟩ (1 / 10) (1 / 5)
          = some c1 ∧
      c1.OGCtrlPoints =
        [⟨0, 0, 0, 1⟩, ⟨2, 0, 0, 1⟩, ⟨1, 2, 0, 1⟩, ⟨0, 0, 0, 1⟩, ⟨2, 0, 0, 1⟩] := by
  refine ⟨by decide, ?_⟩
  obtain ⟨c1, a, b, R1, R2, R3, h, ha, hb, hOG, _⟩ := AddControlPoint_insert none camera
    ⟨[], [⟨0, 0, 0, 1⟩, ⟨2, 0, 0, 1⟩, ⟨0, 0, 0, 1⟩, ⟨2, 0, 0, 1⟩], []⟩ (1 / 10) (1 / 5)
    (by decide)
  refine ⟨c1, h, ?_⟩
  have hw : worldVertex camera (1 / 10) (1 / 5) = ⟨1, 2, 0, 1⟩ := by decide!
  simp only [List.length_cons, List.length_nil] at ha hb
  have ea : a = ⟨0, 0, 0, 1⟩ := by simpa using ha.symm
  have eb : b = ⟨2, 0, 0, 1⟩ := by simpa using hb.symm
  rw [hOG, hw, ea, eb]
  rfl

/-- C4: on the control polygon `[P0]`, `AddControlPoint` with world point `P1` returns
with the polygon `[P0, P1, P0, P1]` and with the same four points, not subdivided, in
`wCurvePoints` (and in `InterpolateCtrlPoints`); from the empty curve, the device points
(0,0) and (1/5,0), that is the world points (0,0) and (2,0), give
[(0,0),(2,0),(0,0),(2,0)]. -/
theorem AddControlPoint_second (oob : Option vec4) (cam : Camera) (W T : List vec4)
    (P0 : vec4) (cX cY : ℚ) :
    AddControlPoint oob cam ⟨W, [P0], T⟩ cX cY =
      some ⟨[P0, worldVertex cam cX cY, P0, worldVertex cam cX cY],
            [P0, worldVertex cam cX cY, P0, worldVertex cam cX cY],
            [P0, worldVertex cam cX cY, P0, worldVertex cam cX cY]⟩ ∧
    AddControlPoint none camera SubdivisionCurve.empty 0 0 =
      some ⟨[], [⟨0, 0, 0, 1⟩], [⟨0, 0, 0, 1⟩]⟩ ∧
    AddControlPoint none camera ⟨[], [⟨0, 0, 0, 1⟩], [⟨0, 0, 0, 1⟩]⟩ (1 / 5) 0 =
      some ⟨[⟨0, 0, 0, 1⟩, ⟨2, 0, 0, 1⟩, ⟨0, 0, 0, 1⟩, ⟨2, 0, 0, 1⟩],
            [⟨0, 0, 0, 1⟩, ⟨2, 0, 0, 1⟩, ⟨0, 0, 0, 1⟩, ⟨2, 0, 0, 1⟩],
            [⟨0, 0, 0, 1⟩, ⟨2, 0, 0, 1⟩, ⟨0, 0, 0, 1⟩, ⟨2, 0, 0, 1⟩]⟩ := by
  refine ⟨AddControlPoint_one oob cam W T P0 cX cY, by decide!, by decide!⟩

/-- C5: whatever the curve holds, `AddControlPoint` returns, and on return
`InterpolateCtrlPoints` equals the control polygon as just updated (the one that holds
the new world point and is longer than the old one). -/
theorem AddControlPoint_targets (oob : Option vec4) (cam : Camera) (c : SubdivisionCurve)
    (cX cY : ℚ) :
    ∃ c1, AddControlPoint oob cam c cX cY = some c1 ∧
      c1.InterpolateCtrlPoints = c1.OGCtrlPoints ∧
      worldVertex cam cX cY ∈ c1.OGCtrlPoints ∧
      c.OGCtrlPoints.length < c1.OGCtrlPoints.length :=
  AddControlPoint_total oob cam c cX cY

/-! ## The two control-point vectors keep the same length -/

theorem Call.run_sameLength (oob : Option vec4) (cam : Camera) (e : Call)
    (c c1 : SubdivisionCurve)
    (hc : c.InterpolateCtrlPoints.length = c.OGCtrlPoints.length)
    (h : e.run oob cam c = some c1) :
    c1.InterpolateCtrlPoints.length = c1.OGCtrlPoints.length := by
  cases e with
  | add cX cY => rw [AddControlPoint_frame oob cam c c1 cX cY h]
  | move p cX cY =>
    obtain ⟨_, _, h1, h2⟩ := MoveControlPoint_frame oob cam c c1 p cX cY h
    rw [h1, h2, hc]; simp
  | step =>
    obtain ⟨h1, h2⟩ := InterpolateStep_frame oob c c1 h
    rw [h1, h2, hc]

theorem runCalls_sameLength (oob : Option vec4) (cam : Camera) :
    ∀ (calls : List Call) (c c1 : SubdivisionCurve),
      c.InterpolateCtrlPoints.length = c.OGCtrlPoints.length →
      runCalls oob cam calls c = some c1 →
      c1.InterpolateCtrlPoints.length = c1.OGCtrlPoints.length := by
  intro calls
  induction calls with
  | nil =>
    intro c c1 hc h
    simp only [runCalls, Option.some.injEq] at h
    exact h ▸ hc
  | cons e es ih =>
    intro c c1 hc h
    rw [runCalls] at h
    cases he : e.run oob cam c with
    | none => rw [he] at h; simp at h
    | some c2 =>
      rw [he] at h
      exact ih c2 c1 (Call.run_sameLength oob cam e c c2 hc he) h

/-- C6: from the empty curve, after any sequence of `AddControlPoint`,
`MoveControlPoint` and `InterpolateStep` calls that all return (a `MoveControlPoint`
with an index out of range does not), `InterpolateCtrlPoints` is as long as
`OGCtrlPoints`; every initial part of such a sequence is such a sequence, so this holds after
every call. -/
theorem runCalls_targets_length (oob : Option vec4) (cam : Camera) (calls : List Call)
    (c : SubdivisionCurve) (h : runCalls oob cam calls SubdivisionCurve.empty = some c) :
    c.InterpolateCtrlPoints.length = c.OGCtrlPoints.length :=
  runCalls_sameLength oob cam calls SubdivisionCurve.empty c rfl h

/-- Witness for C6: three clicks, a key press, a drag of point 2 and another key
press all return (reads past the end yielding the zero vector), with 5 points in both
vectors. -/
theorem runCalls_targets_length_witness :
    ∃ c, runCalls (some ⟨0, 0, 0, 0⟩) camera
        [Call.add 0 0, Call.add (1 / 5) 0, Call.add (1 / 10) (1 / 5), Call.step,
          Call.move 2 (1 / 10) (1 / 10), Call.step] SubdivisionCurve.empty = some c ∧
      c.OGCtrlPoints.length = 5 ∧
      c.InterpolateCtrlPoints.length = c.OGCtrlPoints.length := by
  have hs : ((runCalls (some ⟨0, 0, 0, 0⟩) camera
        [Call.add 0 0, Call.add (1 / 5) 0, Call.add (1 / 10) (1 / 5), Call.step,
          Call.move 2 (1 / 10) (1 / 10), Call.step] SubdivisionCurve.empty).map
        (fun c => c.OGCtrlPoints.length)) = some 5 := by decide!
  obtain ⟨c, hc, h5⟩ := Option.map_eq_some'.mp hs
  exact ⟨c, hc, h5, runCalls_targets_length _ _ _ c hc⟩

/-! ## `PickControlPoint` -/

/-- C7: on a control polygon of world points (`z = 0`, `w = 1`) and a query at the
world point `q` of the device point `(cX, cY)`, `PickControlPoint` returns, leaves the
curve as it was, returns the least index whose point has squared distance to `q`
below 1/2 when there is one, and returns -1 exactly when every control point has squared
distance at least 1/2 to `q`. -/
theorem PickControlPoint_least (oob : Option vec4) (cam : Camera) (c : SubdivisionCurve)
    (cX cY : ℚ) (hW : ∀ v ∈ c.OGCtrlPoints, v.z = 0 ∧ v.w = 1) :
    ∃ r : Int, PickControlPoint oob cam c cX cY = some (r, c) ∧
      (∀ (i : Nat) (v : vec4), c.OGCtrlPoints[i]? = some v →
        sqDist v (worldVertex cam cX cY) < (1 / 2 : ℚ) →
        (∀ (j : Nat) (u : vec4), j < i → c.OGCtrlPoints[j]? = some u →
          (1 / 2 : ℚ) ≤ sqDist u (worldVertex cam cX cY)) →
        r = (i : Int)) ∧
      (r = -1 ↔ ∀ v ∈ c.OGCtrlPoints, (1 / 2 : ℚ) ≤ sqDist v (worldVertex cam cX cY)) := by
  obtain ⟨r, hr, hcase⟩ := PickControlPoint_char oob cam c cX cY hW
  refine ⟨r, hr, ?_, ?_⟩
  · intro i v hv hnear hleast
    rcases hcase with ⟨_, h2⟩ | ⟨i0, v0, h1, h2, h3, h4⟩
    · exact absurd hnear (not_lt.mpr (h2 i v hv))
    · rcases Nat.lt_trichotomy i0 i with hlt | heq | hgt
      · exact absurd h3 (not_lt.mpr (hleast i0 v0 hlt h2))
      · rw [h1, heq]
      · exact absurd hnear (not_lt.mpr (h4 i v hgt hv))
  · rcases hcase with ⟨h1, h2⟩ | ⟨i0, v0, h1, h2, h3, _⟩
    · refine ⟨fun _ v hv => ?_, fun _ => h1⟩
      obtain ⟨j, hj, hju⟩ := List.getElem_of_mem hv
      exact h2 j v (hju ▸ List.getElem?_eq_getElem hj)
    · refine ⟨fun h => by omega, fun h => ?_⟩
      obtain ⟨hi, hiv⟩ := List.getElem?_eq_some_iff.mp h2
      exact absurd h3 (not_lt.mpr (h v0 (hiv ▸ List.getElem_mem _)))

/-- Witness for C7: on [(0,0),(2,0),(0,0),(2,0)], a query at world (2,0) returns 1. -/
theorem PickControlPoint_least_witness :
    (∀ v ∈ (SubdivisionCurve.mk []
        [⟨0, 0, 0, 1⟩, ⟨2, 0, 0, 1⟩, ⟨0, 0, 0, 1⟩, ⟨2, 0, 0, 1⟩] []).OGCtrlPoints,
      v.z = 0 ∧ v.w = 1) ∧
    PickControlPoint none camera
        ⟨[], [⟨0, 0, 0, 1⟩, ⟨2, 0, 0, 1⟩, ⟨0, 0, 0, 1⟩, ⟨2, 0, 0, 1⟩], []⟩ (1 / 5) 0
      = some (1, ⟨[], [⟨0, 0, 0, 1⟩, ⟨2, 0, 0, 1⟩, ⟨0, 0, 0, 1⟩, ⟨2, 0, 0, 1⟩], []⟩) := by
  have hW : ∀ v ∈ (SubdivisionCurve.mk []
        [⟨0, 0, 0, 1⟩, ⟨2, 0, 0, 1⟩, ⟨0, 0, 0, 1⟩, ⟨2, 0, 0, 1⟩] []).OGCtrlPoints,
      v.z = 0 ∧ v.w = 1 := by
    intro v hv
    simp only [List.mem_cons, List.mem_singleton, List.not_mem_nil, or_false] at hv
    rcases hv with h | h | h | h <;> subst h <;> exact ⟨rfl, rfl⟩
  refine ⟨hW, ?_⟩
  obtain ⟨r, hr, h1, _⟩ := PickControlPoint_least none camera
    ⟨[], [⟨0, 0, 0, 1⟩, ⟨2, 0, 0, 1⟩, ⟨0, 0, 0, 1⟩, ⟨2, 0, 0, 1⟩], []⟩ (1 / 5) 0 hW
  have e : r = ((1 : Nat) : Int) := by
    refine h1 1 ⟨2, 0, 0, 1⟩ rfl (by decide!) ?_
    intro j u hj hu
    have hj0 : j = 0 := by omega
    subst hj0
    simp only [List.getElem?_cons_zero, Option.some.injEq] at hu
    subst hu
    decide!
  rw [hr, e]
  rfl

/-- Counterexample for C8: on [(0,0),(2,0),(0,0),(2,0)] the world point of the device
point (0,0) is exactly control point 2, and `PickControlPoint` returns 0, not 2. -/
theorem pick_duplicate_returns_first :
    (SubdivisionCurve.mk []
        [⟨0, 0, 0, 1⟩, ⟨2, 0, 0, 1⟩, ⟨0, 0, 0, 1⟩, ⟨2, 0, 0, 1⟩] []).OGCtrlPoints[2]?
      = some (worldVertex camera 0 0) ∧
    PickControlPoint none camera
        ⟨[], [⟨0, 0, 0, 1⟩, ⟨2, 0, 0, 1⟩, ⟨0, 0, 0, 1⟩, ⟨2, 0, 0, 1⟩], []⟩ 0 0
      = some (0, ⟨[], [⟨0, 0, 0, 1⟩, ⟨2, 0, 0, 1⟩, ⟨0, 0, 0, 1⟩, ⟨2, 0, 0, 1⟩], []⟩) ∧
    (PickControlPoint none camera
        ⟨[], [⟨0, 0, 0, 1⟩, ⟨2, 0, 0, 1⟩, ⟨0, 0, 0, 1⟩, ⟨2, 0, 0, 1⟩], []⟩ 0 0).map Prod.fst
      ≠ some 2 := by
  refine ⟨by decide!, by decide!, by decide!⟩

/-- C8, amended: on a control polygon of world points, a query exactly at the location
of control point `i` returns an index `r ≤ i` (never -1), the least index whose point
has squared distance below 1/2 to that location; it is `i` itself when every control
point before `i` has squared distance at least 1/2 to it. The curve is left as it was. -/
theorem PickControlPoint_at_point (oob : Option vec4) (cam : Camera) (c : SubdivisionCurve)
    (cX cY : ℚ) (i : Nat) (hW : ∀ v ∈ c.OGCtrlPoints, v.z = 0 ∧ v.w = 1)
    (hi : c.OGCtrlPoints[i]? = some (worldVertex cam cX cY)) :
    ∃ (r : Nat) (v : vec4), r ≤ i ∧
      PickControlPoint oob cam c cX cY = some ((r : Int), c) ∧
      c.OGCtrlPoints[r]? = some v ∧
      sqDist v (worldVertex cam cX cY) < (1 / 2 : ℚ) ∧
      (∀ (j : Nat) (u : vec4), j < r → c.OGCtrlPoints[j]? = some u →
        (1 / 2 : ℚ) ≤ sqDist u (worldVertex cam cX cY)) ∧
      ((∀ (j : Nat) (u : vec4), j < i → c.OGCtrlPoints[j]? = some u →
        (1 / 2 : ℚ) ≤ sqDist u (worldVertex cam cX cY)) → r = i) := by
  have hself : sqDist (worldVertex cam cX cY) (worldVertex cam cX cY) < (1 / 2 : ℚ) := by
    simp [sqDist]
  obtain ⟨r, hr, hcase⟩ := PickControlPoint_char oob cam c cX cY hW
  rcases hcase with ⟨_, h2⟩ | ⟨i0, v0, h1, h2, h3, h4⟩
  · exact absurd hself (not_lt.mpr (h2 i _ hi))
  · have hle : i0 ≤ i := by
      by_contra hgt
      exact absurd hself (not_lt.mpr (h4 i _ (by omega) hi))
    refine ⟨i0, v0, hle, h1 ▸ hr, h2, h3, h4, fun hall => ?_⟩
    by_contra hne
    exact absurd h3 (not_lt.mpr (hall i0 v0 (by omega) h2))

/-- Witness for C8 (amended): on [(0,0),(2,0),(0,0),(2,0)], a query at control point 3,
the world point (2,0), returns an index at most 3 (it is 1). -/
theorem PickControlPoint_at_point_witness :
    (∀ v ∈ (SubdivisionCurve.mk []
        [⟨0, 0, 0, 1⟩, ⟨2, 0, 0, 1⟩, ⟨0, 0, 0, 1⟩, ⟨2, 0, 0, 1⟩] []).OGCtrlPoints,
      v.z = 0 ∧ v.w = 1) ∧
    (SubdivisionCurve.mk []
        [⟨0, 0, 0, 1⟩, ⟨2, 0, 0, 1⟩, ⟨0, 0, 0, 1⟩, ⟨2, 0, 0, 1⟩] []).OGCtrlPoints[3]?
      = some (worldVertex camera (1 / 5) 0) ∧
    ∃ r : Nat, r ≤ 3 ∧ PickControlPoint none camera
        ⟨[], [⟨0, 0, 0, 1⟩, ⟨2, 0, 0, 1⟩, ⟨0, 0, 0, 1⟩, ⟨2, 0, 0, 1⟩], []⟩ (1 / 5) 0
      = some ((r : Int), ⟨[], [⟨0, 0, 0, 1⟩, ⟨2, 0, 0, 1⟩, ⟨0, 0, 0, 1⟩, ⟨2, 0, 0, 1⟩], []⟩) := by
  have hW : ∀ v ∈ (SubdivisionCurve.mk []
        [⟨0, 0, 0, 1⟩, ⟨2, 0, 0, 1⟩, ⟨0, 0, 0, 1⟩, ⟨2, 0, 0, 1⟩] []).OGCtrlPoints,
      v.z = 0 ∧ v.w = 1 := by
    intro v hv
    simp only [List.mem_cons, List.mem_singleton, List.not_mem_nil, or_false] at hv
    rcases hv with h | h | h | h <;> subst h <;> exact ⟨rfl, rfl⟩
  have hi : (SubdivisionCurve.mk []
        [⟨0, 0, 0, 1⟩, ⟨2, 0, 0, 1⟩, ⟨0, 0, 0, 1⟩, ⟨2, 0, 0, 1⟩] []).OGCtrlPoints[3]?
      = some (worldVertex camera (1 / 5) 0) := by decide!
  obtain ⟨r, _, hle, hr, _⟩ := PickControlPoint_at_point none camera
    ⟨[], [⟨0, 0, 0, 1⟩, ⟨2, 0, 0, 1⟩, ⟨0, 0, 0, 1⟩, ⟨2, 0, 0, 1⟩], []⟩ (1 / 5) 0 3 hW hi
  exact ⟨hW, hi, r, hle, hr⟩

/-! ## `MoveControlPoint` -/

/-- C9: on a control polygon of `n ≥ 3` points and an index `p < n`,
`MoveControlPoint` returns; the polygon has the same length, holds the new world point
at `p` and its old entries everywhere else; and `wCurvePoints` is what four successive
rounds of subdivision make of the updated polygon. -/
theorem MoveControlPoint_spec (oob : Option vec4) (cam : Camera) (c : SubdivisionCurve)
    (p : Nat) (cX cY : ℚ) (hn : 3 ≤ c.OGCtrlPoints.length) (hp : p < c.OGCtrlPoints.length) :
    ∃ (c1 : SubdivisionCurve) (R1 R2 R3 : List vec4),
      MoveControlPoint oob cam c (p : Int) cX cY = some c1 ∧
      c1.OGCtrlPoints.length = c.OGCtrlPoints.length ∧
      c1.OGCtrlPoints[p]? = some (worldVertex cam cX cY) ∧
      (∀ j : Nat, j ≠ p → c1.OGCtrlPoints[j]? = c.OGCtrlPoints[j]?) ∧
      subdivisionRound oob c1.OGCtrlPoints = some R1 ∧
      subdivisionRound oob R1 = some R2 ∧
      subdivisionRound oob R2 = some R3 ∧
      subdivisionRound oob R3 = some c1.wCurvePoints := by
  obtain ⟨W, OG, T⟩ := c
  simp only at hn hp ⊢
  have hl : 3 ≤ (OG.set p (worldVertex cam cX cY)).length := by simpa using hn
  have h1 := length_refined_ge _ hl
  have h2 := length_refined_ge _ h1
  have h3 := length_refined_ge _ h2
  refine ⟨_, _, _, _, MoveControlPoint_eq oob cam W OG T p cX cY hn hp, by simp, ?_, ?_,
    subdivisionRound_eq oob _ hl, subdivisionRound_eq oob _ h1, subdivisionRound_eq oob _ h2,
    subdivisionRound_eq oob _ h3⟩
  · simp only
    rw [List.getElem?_set]; simp [hp]
  · intro j hj
    simp only
    rw [List.getElem?_set, if_neg (Ne.symm hj)]

/-- Witness for C9: dragging point 2 of [(0,0),(2,0),(1,2),(0,0),(2,0)] returns. -/
theorem MoveControlPoint_spec_witness :
    3 ≤ (SubdivisionCurve.mk [] [⟨0, 0, 0, 1⟩, ⟨2, 0, 0, 1⟩, ⟨1, 2, 0, 1⟩, ⟨0, 0, 0, 1⟩,
      ⟨2, 0, 0, 1⟩] []).OGCtrlPoints.length ∧
    2 < (SubdivisionCurve.mk [] [⟨0, 0, 0, 1⟩, ⟨2, 0, 0, 1⟩, ⟨1, 2, 0, 1⟩, ⟨0, 0, 0, 1⟩,
      ⟨2, 0, 0, 1⟩] []).OGCtrlPoints.length ∧
    ∃ c1, MoveControlPoint none camera ⟨[], [⟨0, 0, 0, 1⟩, ⟨2, 0, 0, 1⟩, ⟨1, 2, 0, 1⟩,
        ⟨0, 0, 0, 1⟩, ⟨2, 0, 0, 1⟩], []⟩ 2 (1 / 10) (1 / 10) = some c1 ∧
      c1.OGCtrlPoints[2]? = some (worldVertex camera (1 / 10) (1 / 10)) := by
  refine ⟨by decide, by decide, ?_⟩
  obtain ⟨c1, _, _, _, h, _, h2, _⟩ := MoveControlPoint_spec none camera
    ⟨[], [⟨0, 0, 0, 1⟩, ⟨2, 0, 0, 1⟩, ⟨1, 2, 0, 1⟩, ⟨0, 0, 0, 1⟩, ⟨2, 0, 0, 1⟩], []⟩ 2
    (1 / 10) (1 / 10) (by decide) (by decide)
  exact ⟨c1, h, h2⟩

/-- C10: whenever `MoveControlPoint` returns, `InterpolateCtrlPoints` is exactly what it
was before the call, whatever it held; and the call does return, with that vector
untouched, for every index in range on every control polygon of 3 points or more (on a
shorter polygon the subdivision rounds read out of range: there it returns under the
reading where such reads yield a value). -/
theorem MoveControlPoint_targets (oob : Option vec4) (cam : Camera) (c : SubdivisionCurve)
    (p : Int) (cX cY : ℚ) :
    (∀ c1, MoveControlPoint oob cam c p cX cY = some c1 →
      c1.InterpolateCtrlPoints = c.InterpolateCtrlPoints) ∧
    (3 ≤ c.OGCtrlPoints.length ∨ oob.isSome = true → 0 ≤ p →
      p.toNat < c.OGCtrlPoints.length →
      ∃ c1, MoveControlPoint oob cam c p cX cY = some c1 ∧
        c1.InterpolateCtrlPoints = c.InterpolateCtrlPoints) := by
  have hframe : ∀ c1, MoveControlPoint oob cam c p cX cY = some c1 →
      c1.InterpolateCtrlPoints = c.InterpolateCtrlPoints :=
    fun c1 h => (MoveControlPoint_frame oob cam c c1 p cX cY h).2.2.2
  refine ⟨hframe, ?_⟩
  intro hn hp0 hp
  rcases hn with hn | hsome
  · obtain ⟨W, OG, T⟩ := c
    have hcast : ((p.toNat : Nat) : Int) = p := Int.toNat_of_nonneg hp0
    have := MoveControlPoint_eq oob cam W OG T p.toNat cX cY hn hp
    rw [hcast] at this
    exact ⟨_, this, rfl⟩
  · obtain ⟨v, rfl⟩ := Option.isSome_iff_exists.mp hsome
    obtain ⟨c1, h1⟩ := subdivide4_total v
      { c with OGCtrlPoints := c.OGCtrlPoints.set p.toNat (worldVertex cam cX cY),
               wCurvePoints := c.OGCtrlPoints.set p.toNat (worldVertex cam cX cY) }
    have h : MoveControlPoint (some v) cam c p cX cY = some c1 := by
      simp only [MoveControlPoint, if_pos (And.intro hp0 hp)]
      exact h1
    exact ⟨c1, h, hframe c1 h⟩

/-- Witness for C10: with targets that differ from the control polygon, dragging point 2
returns and leaves the targets as they were. -/
theorem MoveControlPoint_targets_witness :
    ∃ c1, MoveControlPoint none camera
        ⟨[], [⟨0, 0, 0, 1⟩, ⟨2, 0, 0, 1⟩, ⟨1, 2, 0, 1⟩, ⟨0, 0, 0, 1⟩, ⟨2, 0, 0, 1⟩],
          [⟨-1 / 2, -1 / 3, 0, 1⟩, ⟨5 / 2, -1 / 3, 0, 1⟩, ⟨1, 8 / 3, 0, 1⟩,
            ⟨-1 / 2, -1 / 3, 0, 1⟩, ⟨2, 0, 0, 1⟩]⟩ 2 (1 / 10) (1 / 10) = some c1 ∧
      c1.InterpolateCtrlPoints =
        [⟨-1 / 2, -1 / 3, 0, 1⟩, ⟨5 / 2, -1 / 3, 0, 1⟩, ⟨1, 8 / 3, 0, 1⟩,
          ⟨-1 / 2, -1 / 3, 0, 1⟩, ⟨2, 0, 0, 1⟩] :=
  (MoveControlPoint_targets none camera
    ⟨[], [⟨0, 0, 0, 1⟩, ⟨2, 0, 0, 1⟩, ⟨1, 2, 0, 1⟩, ⟨0, 0, 0, 1⟩, ⟨2, 0, 0, 1⟩],
      [⟨-1 / 2, -1 / 3, 0, 1⟩, ⟨5 / 2, -1 / 3, 0, 1⟩, ⟨1, 8 / 3, 0, 1⟩,
        ⟨-1 / 2, -1 / 3, 0, 1⟩, ⟨2, 0, 0, 1⟩]⟩ 2 (1 / 10) (1 / 10)).2
    (Or.inl (by decide)) (by decide) (by decide)

/-! ## `InterpolateStep`: the new targets -/

theorem getElem?_getD_lt (S : List vec4) (i : Nat) (d : vec4) (h : i < S.length) :
    S[i]? = some (S.getD i d) := by
  simp [List.getElem?_eq_getElem h]

theorem vec4.add_sub_eq (a b c : vec4) : a + (b - c) = a + b - c := by
  ext <;> simp [vec4.add_def, vec4.sub_def] <;> ring

/-- C11: with `n ≥ 3` targets `T` and a control polygon `C` of the same length,
whatever value `v` the read one past the end of `T` yields, `InterpolateStep` returns;
it leaves the control polygon unchanged and the number of targets too; every target
`1 ≤ i ≤ n - 2` becomes `T[i] + C[i] - (T[i-1] + 4 T[i] + T[i+1]) / 6`; target 0 becomes
`T[0] + C[0] - (T[n-3] + 4 T[n-2] + T[n-1]) / 6`; and `wCurvePoints` is what four
successive rounds of subdivision make of the new targets. -/
theorem InterpolateStep_targets (v : vec4) (c : SubdivisionCurve)
    (hn : 3 ≤ c.InterpolateCtrlPoints.length)
    (hlen : c.OGCtrlPoints.length = c.InterpolateCtrlPoints.length) :
    ∃ (c1 : SubdivisionCurve) (R1 R2 R3 : List vec4),
      InterpolateStep (some v) c = some c1 ∧
      c1.OGCtrlPoints = c.OGCtrlPoints ∧
      c1.InterpolateCtrlPoints.length = c.InterpolateCtrlPoints.length ∧
      (∀ i : Nat, 1 ≤ i → i ≤ c.InterpolateCtrlPoints.length - 2 →
        ∃ tm t tp ci : vec4,
          c.InterpolateCtrlPoints[i - 1]? = some tm ∧ c.InterpolateCtrlPoints[i]? = some t ∧
          c.InterpolateCtrlPoints[i + 1]? = some tp ∧ c.OGCtrlPoints[i]? = some ci ∧
          c1.InterpolateCtrlPoints[i]? =
            some (t + ci - (tm + (4 : ℚ) * t + tp) / (6 : ℚ))) ∧
      (∃ t0 c0 a b d : vec4,
          c.InterpolateCtrlPoints[0]? = some t0 ∧ c.OGCtrlPoints[0]? = some c0 ∧
          c.InterpolateCtrlPoints[c.InterpolateCtrlPoints.length - 3]? = some a ∧
          c.InterpolateCtrlPoints[c.InterpolateCtrlPoints.length - 2]? = some b ∧
          c.InterpolateCtrlPoints[c.InterpolateCtrlPoints.length - 1]? = some d ∧
          c1.InterpolateCtrlPoints[0]? =
            some (t0 + c0 - (a + (4 : ℚ) * b + d) / (6 : ℚ))) ∧
      subdivisionRound (some v) c1.InterpolateCtrlPoints = some R1 ∧
      subdivisionRound (some v) R1 = some R2 ∧
      subdivisionRound (some v) R2 = some R3 ∧
      subdivisionRound (some v) R3 = some c1.wCurvePoints := by
  obtain ⟨W, OG, T⟩ := c
  simp only at hn hlen ⊢
  obtain ⟨T1, hstep, hl, hin⟩ := InterpolateStep_eq v W OG T hn hlen
  have h0 : 3 ≤ T1.length := by omega
  have h1 := length_refined_ge _ h0
  have h2 := length_refined_ge _ h1
  have h3 := length_refined_ge _ h2
  refine ⟨_, _, _, _, hstep, rfl, hl, ?_, ?_, subdivisionRound_eq _ _ h0,
    subdivisionRound_eq _ _ h1, subdivisionRound_eq _ _ h2, subdivisionRound_eq _ _ h3⟩
  · intro i hi1 hi2
    refine ⟨_, _, _, _, getElem?_getD_lt T (i - 1) v (by omega), getElem?_getD_lt T i v (by omega),
      getElem?_getD_lt T (i + 1) v (by omega), getElem?_getD_lt OG i v (by omega), ?_⟩
    simp only
    rw [hin i (by omega), getD_of_lt T i ⟨0, 0, 0, 0⟩ v (by omega),
      getD_of_lt OG i ⟨0, 0, 0, 0⟩ v (by omega), vec4.add_sub_eq, vlAt, if_neg (by omega), limAt]
  · refine ⟨_, _, _, _, _, getElem?_getD_lt T 0 v (by omega), getElem?_getD_lt OG 0 v (by omega),
      getElem?_getD_lt T (T.length - 3) v (by omega),
      getElem?_getD_lt T (T.length - 2) v (by omega),
      getElem?_getD_lt T (T.length - 1) v (by omega), ?_⟩
    simp only
    rw [hin 0 (by omega), getD_of_lt T 0 ⟨0, 0, 0, 0⟩ v (by omega),
      getD_of_lt OG 0 ⟨0, 0, 0, 0⟩ v (by omega), vec4.add_sub_eq, vlAt, if_pos rfl, limAt]
    have e1 : T.length - 2 - 1 = T.length - 3 := by omega
    have e2 : T.length - 2 + 1 = T.length - 1 := by omega
    rw [e1, e2]

/-- Witness for C11: a step on the polygon [(0,0),(2,0),(1,2),(0,0),(2,0)] with targets
equal to it returns and keeps the polygon. -/
theorem InterpolateStep_targets_witness :
    3 ≤ (SubdivisionCurve.mk []
      [⟨0, 0, 0, 1⟩, ⟨2, 0, 0, 1⟩, ⟨1, 2, 0, 1⟩, ⟨0, 0, 0, 1⟩, ⟨2, 0, 0, 1⟩]
      [⟨0, 0, 0, 1⟩, ⟨2, 0, 0, 1⟩, ⟨1, 2, 0, 1⟩, ⟨0, 0, 0, 1⟩, ⟨2, 0, 0, 1⟩]
      ).InterpolateCtrlPoints.length ∧
    ∃ c1, InterpolateStep (some ⟨0, 0, 0, 0⟩) ⟨[],
        [⟨0, 0, 0, 1⟩, ⟨2, 0, 0, 1⟩, ⟨1, 2, 0, 1⟩, ⟨0, 0, 0, 1⟩, ⟨2, 0, 0, 1⟩],
        [⟨0, 0, 0, 1⟩, ⟨2, 0, 0, 1⟩, ⟨1, 2, 0, 1⟩, ⟨0, 0, 0, 1⟩, ⟨2, 0, 0, 1⟩]⟩ = some c1 ∧
      c1.OGCtrlPoints =
        [⟨0, 0, 0, 1⟩, ⟨2, 0, 0, 1⟩, ⟨1, 2, 0, 1⟩, ⟨0, 0, 0, 1⟩, ⟨2, 0, 0, 1⟩] ∧
      c1.InterpolateCtrlPoints.length = 5 := by
  refine ⟨by decide, ?_⟩
  obtain ⟨c1, _, _, _, h, hog, hl, _⟩ := InterpolateStep_targets ⟨0, 0, 0, 0⟩ ⟨[],
    [⟨0, 0, 0, 1⟩, ⟨2, 0, 0, 1⟩, ⟨1, 2, 0, 1⟩, ⟨0, 0, 0, 1⟩, ⟨2, 0, 0, 1⟩],
    [⟨0, 0, 0, 1⟩, ⟨2, 0, 0, 1⟩, ⟨1, 2, 0, 1⟩, ⟨0, 0, 0, 1⟩, ⟨2, 0, 0, 1⟩]⟩
    (by decide) (by decide)
  exact ⟨c1, h, hog, hl⟩

/-! ## Out-of-range accesses in the editing operations -/

/-- C12, the code at three inputs it can receive (window of 600 x 600 pixels):
a key press as the first event has no result under either reading of out-of-range reads
(`InterpolateStep` reads and then writes elements of empty vectors); three clicks return
and the key press after them has no result under the strict reading
(`InterpolateStep` reads `InterpolateCtrlPoints[5]` of 5 elements); and after one click,
a right press on that point picks index 0 and the motion that follows has no result under
the strict reading (`MoveControlPoint` runs `nextSubdivisionCalculate` on 1 point). -/
theorem editing_faults :
    (∀ oob : Option vec4,
      runEvents oob camera 600 600 [Event.keyboard] Program.initial = none) ∧
    ((runEvents none camera 600 600
        [Event.mouse Button.left ButtonState.down 300 300,
          Event.mouse Button.left ButtonState.down 360 300,
          Event.mouse Button.left ButtonState.down 330 240] Program.initial).map
        (fun s => s.curve.OGCtrlPoints.length) = some 5 ∧
      runEvents none camera 600 600
        [Event.mouse Button.left ButtonState.down 300 300,
          Event.mouse Button.left ButtonState.down 360 300,
          Event.mouse Button.left ButtonState.down 330 240,
          Event.keyboard] Program.initial = none) ∧
    ((runEvents none camera 600 600
        [Event.mouse Button.left ButtonState.down 300 300,
          Event.mouse Button.right ButtonState.down 300 300] Program.initial).map
        (fun s => (s.curve.OGCtrlPoints.length, s.pickedControlPoint)) = some (1, 0) ∧
      runEvents none camera 600 600
        [Event.mouse Button.left ButtonState.down 300 300,
          Event.mouse Button.right ButtonState.down 300 300,
          Event.motion 310 300] Program.initial = none) := by
  refine ⟨fun oob => ?_, ⟨by decide!, by decide!⟩, ⟨by decide!, by decide!⟩⟩
  simp [runEvents, Event.handle, onKeyboard, Program.initial, SubdivisionCurve.empty,
    InterpolateStep_empty]

/-! ## Four rounds of subdivision: lengths -/

/-- C13: on `n ≥ 3` points, four rounds of subdivision in a row all return, each on a
sequence of 3 points or more, and the last one leaves `16 * (n - 2) + 2` points; and
after three `AddControlPoint` calls from the empty curve the control polygon has 5 points
and `wCurvePoints` exactly 50. -/
theorem subdivisionRound_four_lengths (oob : Option vec4) :
    (∀ S : List vec4, 3 ≤ S.length →
      ∃ R1 R2 R3 R4 : List vec4,
        subdivisionRound oob S = some R1 ∧ 3 ≤ R1.length ∧
        subdivisionRound oob R1 = some R2 ∧ 3 ≤ R2.length ∧
        subdivisionRound oob R2 = some R3 ∧ 3 ≤ R3.length ∧
        subdivisionRound oob R3 = some R4 ∧
        R4.length = 16 * (S.length - 2) + 2) ∧
    (∀ (cam : Camera) (a b d : ℚ × ℚ),
      ∃ c, runCalls oob cam [Call.add a.1 a.2, Call.add b.1 b.2, Call.add d.1 d.2]
          SubdivisionCurve.empty = some c ∧
        c.OGCtrlPoints.length = 5 ∧ c.wCurvePoints.length = 50) := by
  constructor
  · intro S hn
    have h1 := length_refined_ge _ hn
    have h2 := length_refined_ge _ h1
    have h3 := length_refined_ge _ h2
    refine ⟨_, _, _, _, subdivisionRound_eq oob _ hn, h1, subdivisionRound_eq oob _ h1, h2,
      subdivisionRound_eq oob _ h2, h3, subdivisionRound_eq oob _ h3, ?_⟩
    simp only [length_refined]
    omega
  · intro cam a b d
    obtain ⟨c, hc, hOG, hW⟩ := runCalls_adds oob cam a b [d]
    exact ⟨c, hc, by rw [hOG]; rfl, by rw [hW (by simp)]; rfl⟩

/-- Witness for C13: the polygon [(0,0),(2,0),(1,2),(0,0),(2,0)] refines in four rounds
to 50 points. -/
theorem subdivisionRound_four_lengths_witness :
    3 ≤ ([⟨0, 0, 0, 1⟩, ⟨2, 0, 0, 1⟩, ⟨1, 2, 0, 1⟩, ⟨0, 0, 0, 1⟩, ⟨2, 0, 0, 1⟩] :
      List vec4).length ∧
    ∃ R1 R2 R3 R4 : List vec4,
      subdivisionRound none
        [⟨0, 0, 0, 1⟩, ⟨2, 0, 0, 1⟩, ⟨1, 2, 0, 1⟩, ⟨0, 0, 0, 1⟩, ⟨2, 0, 0, 1⟩] = some R1 ∧
      subdivisionRound none R1 = some R2 ∧ subdivisionRound none R2 = some R3 ∧
      subdivisionRound none R3 = some R4 ∧ R4.length = 50 := by
  refine ⟨by decide, ?_⟩
  obtain ⟨R1, R2, R3, R4, h1, _, h2, _, h3, _, h4, hl⟩ :=
    (subdivisionRound_four_lengths none).1
      [⟨0, 0, 0, 1⟩, ⟨2, 0, 0, 1⟩, ⟨1, 2, 0, 1⟩, ⟨0, 0, 0, 1⟩, ⟨2, 0, 0, 1⟩] (by decide)
  exact ⟨R1, R2, R3, R4, h1, h2, h3, h4, hl⟩

/-! ## The control polygon after `k` clicks -/

/-- C15: from the empty curve, one `AddControlPoint` leaves the polygon `[p1]` and
`wCurvePoints` empty; `k ≥ 2` of them, with world points `p1, ..., pk`, return and leave
exactly `[p1, ..., pk, p1, p2]`, of length `k + 2`, at least 4. -/
theorem AddControlPoint_sequence (oob : Option vec4) (cam : Camera) :
    (∀ a : ℚ × ℚ,
      runCalls oob cam [Call.add a.1 a.2] SubdivisionCurve.empty =
        some ⟨[], [worldVertex cam a.1 a.2], [worldVertex cam a.1 a.2]⟩) ∧
    (∀ (a b : ℚ × ℚ) (rest : List (ℚ × ℚ)),
      ∃ c, runCalls oob cam ((a :: b :: rest).map (fun q => Call.add q.1 q.2))
          SubdivisionCurve.empty = some c ∧
        c.OGCtrlPoints = (a :: b :: rest).map (fun q => worldVertex cam q.1 q.2) ++
          [worldVertex cam a.1 a.2, worldVertex cam b.1 b.2] ∧
        c.OGCtrlPoints.length = (a :: b :: rest).length + 2 ∧
        4 ≤ c.OGCtrlPoints.length) := by
  constructor
  · intro a
    simp only [runCalls, Call.run, SubdivisionCurve.empty]
    rw [AddControlPoint_other oob cam [] [] [] a.1 a.2 (by simp) (by simp)]
    rfl
  · intro a b rest
    obtain ⟨c, hc, hOG, _⟩ := runCalls_adds oob cam a b rest
    refine ⟨c, hc, hOG, ?_, ?_⟩ <;> rw [hOG] <;> simp

/-! ## The event layer -/

/-- C18: in every state the program reaches from its initial state by mouse, motion and
keyboard events whose handlers return, `pickedControlPoint` is -1 or a non-negative
index strictly below the length of the control polygon; so the index `onMouseMotion`
passes to `MoveControlPoint`, which it does only when it is non-negative, is in range. -/
theorem pickedControlPoint_in_range (oob : Option vec4) (cam : Camera)
    (windowWidth windowHeight : Nat) (events : List Event) (s : Program)
    (h : runEvents oob cam windowWidth windowHeight events Program.initial = some s) :
    s.pickedControlPoint = -1 ∨
      (0 ≤ s.pickedControlPoint ∧
        s.pickedControlPoint.toNat < s.curve.OGCtrlPoints.length) :=
  runEvents_picked oob cam windowWidth windowHeight events Program.initial s (Or.inl rfl) h

/-- Witness for C18: in a window of 600 x 600 pixels, three clicks, a key press, a
right press on the third point and a motion return (the read past the end yielding the
zero vector), with `pickedControlPoint = 2` and 5 control points. -/
theorem pickedControlPoint_in_range_witness :
    ∃ s, runEvents (some ⟨0, 0, 0, 0⟩) camera 600 600
        [Event.mouse Button.left ButtonState.down 300 300,
          Event.mouse Button.left ButtonState.down 360 300,
          Event.mouse Button.left ButtonState.down 330 240,
          Event.keyboard,
          Event.mouse Button.right ButtonState.down 330 240,
          Event.motion 340 250] Program.initial = some s ∧
      s.pickedControlPoint = 2 ∧ s.curve.OGCtrlPoints.length = 5 ∧
      (s.pickedControlPoint = -1 ∨
        (0 ≤ s.pickedControlPoint ∧
          s.pickedControlPoint.toNat < s.curve.OGCtrlPoints.length)) := by
  have hs : (runEvents (some ⟨0, 0, 0, 0⟩) camera 600 600
        [Event.mouse Button.left ButtonState.down 300 300,
          Event.mouse Button.left ButtonState.down 360 300,
          Event.mouse Button.left ButtonState.down 330 240,
          Event.keyboard,
          Event.mouse Button.right ButtonState.down 330 240,
          Event.motion 340 250] Program.initial).map
        (fun s => (s.pickedControlPoint, s.curve.OGCtrlPoints.length)) = some (2, 5) := by
    decide!
  obtain ⟨s, hrun, hv⟩ := Option.map_eq_some'.mp hs
  simp only [Prod.mk.injEq] at hv
  exact ⟨s, hrun, hv.1, hv.2, pickedControlPoint_in_range _ _ _ _ _ s hrun⟩

/-! ## Repeated interpolation steps -/

/-- Counterexample for C16: binary32, scalar 1 and offset (x, x, 0, 0) with
`x = 10485765 / 4194304` (about 2.50000119). The sequence of three copies of (0,0) is
refined to four copies of (0,0), and `1 * p + c` takes these to four copies of (x, x);
but the sequence of the three `1 * p + c`, three copies of (x, x), is refined to
(x, x), (x', x'), (x, x), (x', x') with `x' = 5242883 / 2097152` (about 2.50000143):
the constant sequence is not refined to the same constant. -/
theorem refine_shifted_zero :
    subdivisionRoundR fl32 none [⟨0, 0, 0, 1⟩, ⟨0, 0, 0, 1⟩, ⟨0, 0, 0, 1⟩] =
      some [⟨0, 0, 0, 1⟩, ⟨0, 0, 0, 1⟩, ⟨0, 0, 0, 1⟩, ⟨0, 0, 0, 1⟩] ∧
    ([⟨0, 0, 0, 1⟩, ⟨0, 0, 0, 1⟩, ⟨0, 0, 0, 1⟩, ⟨0, 0, 0, 1⟩] : List vec4).map
        (fun p => vec4.addR fl32 (vec4.smulR fl32 1 p)
          ⟨10485765 / 4194304, 10485765 / 4194304, 0, 0⟩) =
      [⟨10485765 / 4194304, 10485765 / 4194304, 0, 1⟩,
        ⟨10485765 / 4194304, 10485765 / 4194304, 0, 1⟩,
        ⟨10485765 / 4194304, 10485765 / 4194304, 0, 1⟩,
        ⟨10485765 / 4194304, 10485765 / 4194304, 0, 1⟩] ∧
    subdivisionRoundR fl32 none
        (([⟨0, 0, 0, 1⟩, ⟨0, 0, 0, 1⟩, ⟨0, 0, 0, 1⟩] : List vec4).map
          (fun p => vec4.addR fl32 (vec4.smulR fl32 1 p)
            ⟨10485765 / 4194304, 10485765 / 4194304, 0, 0⟩)) =
      some [⟨10485765 / 4194304, 10485765 / 4194304, 0, 1⟩,
        ⟨5242883 / 2097152, 5242883 / 2097152, 0, 1⟩,
        ⟨10485765 / 4194304, 10485765 / 4194304, 0, 1⟩,
        ⟨5242883 / 2097152, 5242883 / 2097152, 0, 1⟩] ∧
    subdivisionRoundR fl32 none
        (List.replicate 3 ⟨10485765 / 4194304, 10485765 / 4194304, 0, 1⟩) ≠
      some (List.replicate 4 ⟨10485765 / 4194304, 10485765 / 4194304, 0, 1⟩) := by
  refine ⟨by decide!, by decide!, by decide!, by decide!⟩

/-- C16, amended: in binary32 a round of subdivision on a sequence `S` of 3 points or
more commutes with negation (scalar -1, offset 0): on the sequence of the `-S[i]` it
returns the sequence of the `-R[i]`, where `R` is what it returns on `S`. On the
constant sequence of `n ≥ 3` copies of a point `p` it returns `2 (n - 2) + 2` points,
in turn the `(p + p) / 2` and the `(p + 6 p + p) / 8` as computed, which need not be
`p`. -/
theorem subdivisionRoundR_neg (oob : Option vec4) :
    (∀ (S : List vec4), 3 ≤ S.length →
      ∃ R, subdivisionRoundR fl32 oob S = some R ∧
        subdivisionRoundR fl32 oob (S.map vec4.neg) = some (R.map vec4.neg)) ∧
    (∀ (n : Nat) (p : vec4), 3 ≤ n →
      ∃ R, subdivisionRoundR fl32 oob (List.replicate n p) = some R ∧
        R.length = 2 * (n - 2) + 2 ∧
        ∀ k, k < n - 1 →
          R[2 * k]? = some (midR fl32 p p) ∧ R[2 * k + 1]? = some (smoothR fl32 p p p)) := by
  constructor
  · intro S hn
    refine ⟨refinedR fl32 S, subdivisionRoundR_eq fl32 oob S hn, ?_⟩
    rw [subdivisionRoundR_eq fl32 oob _ (by simpa using hn), refinedR_neg S hn]
  · intro n p hn
    refine ⟨refinedR fl32 (List.replicate n p),
      subdivisionRoundR_eq fl32 oob _ (by simpa using hn), ?_, ?_⟩
    · rw [length_refinedR, List.length_replicate]
    · intro k hk
      exact getElem?_refinedR_replicate fl32 n p hn k hk

/-- Witness for C16 (amended): the points (0.1f, 0), (2, 0.3f), (1, 2) and their
negatives, and three copies of (x, x) with `x = 10485765 / 4194304`. -/
theorem subdivisionRoundR_neg_witness :
    3 ≤ ([⟨13421773 / 134217728, 0, 0, 1⟩, ⟨2, 5033165 / 16777216, 0, 1⟩,
      ⟨1, 2, 0, 1⟩] : List vec4).length ∧
    (∃ R, subdivisionRoundR fl32 none [⟨13421773 / 134217728, 0, 0, 1⟩,
        ⟨2, 5033165 / 16777216, 0, 1⟩, ⟨1, 2, 0, 1⟩] = some R ∧
      subdivisionRoundR fl32 none
        (([⟨13421773 / 134217728, 0, 0, 1⟩, ⟨2, 5033165 / 16777216, 0, 1⟩,
          ⟨1, 2, 0, 1⟩] : List vec4).map vec4.neg) = some (R.map vec4.neg)) ∧
    3 ≤ 3 ∧
    ∃ R, subdivisionRoundR fl32 none
        (List.replicate 3 ⟨10485765 / 4194304, 10485765 / 4194304, 0, 1⟩) = some R ∧
      R.length = 2 * (3 - 2) + 2 ∧
      ∀ k, k < 3 - 1 →
        R[2 * k]? = some (midR fl32 ⟨10485765 / 4194304, 10485765 / 4194304, 0, 1⟩
          ⟨10485765 / 4194304, 10485765 / 4194304, 0, 1⟩) ∧
        R[2 * k + 1]? = some (smoothR fl32 ⟨10485765 / 4194304, 10485765 / 4194304, 0, 1⟩
          ⟨10485765 / 4194304, 10485765 / 4194304, 0, 1⟩
          ⟨10485765 / 4194304, 10485765 / 4194304, 0, 1⟩) :=
  ⟨by decide,
    (subdivisionRoundR_neg none).1 [⟨13421773 / 134217728, 0, 0, 1⟩,
      ⟨2, 5033165 / 16777216, 0, 1⟩, ⟨1, 2, 0, 1⟩] (by decide),
    by decide,
    (subdivisionRoundR_neg none).2 3 ⟨10485765 / 4194304, 10485765 / 4194304, 0, 1⟩
      (by decide)⟩

/-- Counterexample for C19: binary32. For the camera of extent 41 x 41, `P()` has
`3273603 / 67108864` for `2 / 41` and `P() * Pinv()`, as `Pinv() * P()`, has
`16777215 / 16777216` on the diagonal where the identity has 1. With the fixed camera
the world point (0.1f, 0), taken to clip space by `V() * P()`, comes back by `Pinv()`
then `Vinv()`, and by `Pinv() * Vinv()`, as `6710887 / 67108864` (about 0.10000000894),
the machine number next above 0.1f. -/
theorem camera_product_rounded :
    Camera.PR fl32 ⟨0, 0, 41, 41⟩ =
      some ⟨⟨3273603 / 67108864, 0, 0, 0⟩, ⟨0, 3273603 / 67108864, 0, 0⟩, ⟨0, 0, 1, 0⟩,
        ⟨0, 0, 0, 1⟩⟩ ∧
    mat4.mulR fl32
        ⟨⟨3273603 / 67108864, 0, 0, 0⟩, ⟨0, 3273603 / 67108864, 0, 0⟩, ⟨0, 0, 1, 0⟩,
          ⟨0, 0, 0, 1⟩⟩ (Camera.PinvR fl32 ⟨0, 0, 41, 41⟩) =
      ⟨⟨16777215 / 16777216, 0, 0, 0⟩, ⟨0, 16777215 / 16777216, 0, 0⟩, ⟨0, 0, 1, 0⟩,
        ⟨0, 0, 0, 1⟩⟩ ∧
    mat4.mulR fl32 (Camera.PinvR fl32 ⟨0, 0, 41, 41⟩)
        ⟨⟨3273603 / 67108864, 0, 0, 0⟩, ⟨0, 3273603 / 67108864, 0, 0⟩, ⟨0, 0, 1, 0⟩,
          ⟨0, 0, 0, 1⟩⟩ =
      ⟨⟨16777215 / 16777216, 0, 0, 0⟩, ⟨0, 16777215 / 16777216, 0, 0⟩, ⟨0, 0, 1, 0⟩,
        ⟨0, 0, 0, 1⟩⟩ ∧
    (⟨⟨16777215 / 16777216, 0, 0, 0⟩, ⟨0, 16777215 / 16777216, 0, 0⟩, ⟨0, 0, 1, 0⟩,
        ⟨0, 0, 0, 1⟩⟩ : mat4) ≠ mat4.identity ∧
    fl32 (1 / 10) = 13421773 / 134217728 ∧
    Camera.PR fl32 camera =
      some ⟨⟨13421773 / 134217728, 0, 0, 0⟩, ⟨0, 13421773 / 134217728, 0, 0⟩, ⟨0, 0, 1, 0⟩,
        ⟨0, 0, 0, 1⟩⟩ ∧
    vec4.mulMatR fl32 (vec4.mulMatR fl32 (vec4.mulMatR fl32 ⟨13421773 / 134217728, 0, 0, 1⟩
        (mat4.mulR fl32 camera.V
          ⟨⟨13421773 / 134217728, 0, 0, 0⟩, ⟨0, 13421773 / 134217728, 0, 0⟩, ⟨0, 0, 1, 0⟩,
            ⟨0, 0, 0, 1⟩⟩)) (camera.PinvR fl32)) camera.Vinv =
      ⟨6710887 / 67108864, 0, 0, 1⟩ ∧
    vec4.mulMatR fl32 (vec4.mulMatR fl32 ⟨13421773 / 134217728, 0, 0, 1⟩
        (mat4.mulR fl32 camera.V
          ⟨⟨13421773 / 134217728, 0, 0, 0⟩, ⟨0, 13421773 / 134217728, 0, 0⟩, ⟨0, 0, 1, 0⟩,
            ⟨0, 0, 0, 1⟩⟩)) (mat4.mulR fl32 (camera.PinvR fl32) camera.Vinv) =
      ⟨6710887 / 67108864, 0, 0, 1⟩ ∧
    (⟨6710887 / 67108864, 0, 0, 1⟩ : vec4) ≠ ⟨13421773 / 134217728, 0, 0, 1⟩ := by
  refine ⟨by decide!, by decide!, by decide!, by decide!, by decide!, by decide!, by decide!,
    by decide!, by decide!⟩

/-- C19, amended: in binary32, for every camera whose centre coordinates are finite
machine numbers, `V() * Vinv()` and `Vinv() * V()` are the 4x4 identity. For the fixed camera
(centre (0,0), extent 20 x 20) `P() * Pinv()` and `Pinv() * P()` are the identity as
well; this is not so for every non-zero extent, and a point taken to clip space and
back need not come back the same. With the fixed camera the device coordinates
`(cX, cY)`, of magnitude at most `2^100`, map to the world point whose coordinates are
the products `cX * 10` and `cY * 10` rounded to binary32. -/
theorem Camera_inverse_rounded (cam : Camera) (hx : finite32 cam.wCx)
    (hy : finite32 cam.wCy) :
    mat4.mulR fl32 cam.V cam.Vinv = mat4.identity ∧
    mat4.mulR fl32 cam.Vinv cam.V = mat4.identity ∧
    (∃ P, Camera.PR fl32 camera = some P ∧
      mat4.mulR fl32 P (camera.PinvR fl32) = mat4.identity ∧
      mat4.mulR fl32 (camera.PinvR fl32) P = mat4.identity) ∧
    (∀ cX cY : ℚ, |cX| ≤ 2 ^ 100 → |cY| ≤ 2 ^ 100 →
      worldVertexR fl32 camera cX cY = ⟨fl32 (cX * 10), fl32 (cY * 10), 0, 1⟩) := by
  refine ⟨(mulR_V_Vinv cam hx.1 hy.1).1, (mulR_V_Vinv cam hx.1 hy.1).2,
    ⟨⟨⟨13421773 / 134217728, 0, 0, 0⟩, ⟨0, 13421773 / 134217728, 0, 0⟩, ⟨0, 0, 1, 0⟩,
      ⟨0, 0, 0, 1⟩⟩, by decide!, by decide!, by decide!⟩, ?_⟩
  intro cX cY _ _
  exact worldVertexR_camera cX cY

/-- Witness for C19 (amended): the fixed camera, whose centre is (0,0), and the device
point (0.1f, 0.5), which maps to the world point (1, 5). -/
theorem Camera_inverse_rounded_witness :
    finite32 camera.wCx ∧ finite32 camera.wCy ∧
    mat4.mulR fl32 camera.V camera.Vinv = mat4.identity ∧
    mat4.mulR fl32 camera.Vinv camera.V = mat4.identity ∧
    worldVertexR fl32 camera (13421773 / 134217728) (1 / 2) = ⟨1, 5, 0, 1⟩ := by
  have hx : finite32 camera.wCx := ⟨by decide!, by decide!⟩
  have hy : finite32 camera.wCy := ⟨by decide!, by decide!⟩
  obtain ⟨h1, h2, _, h4⟩ := Camera_inverse_rounded camera hx hy
  refine ⟨hx, hy, h1, h2, ?_⟩
  rw [h4 (13421773 / 134217728) (1 / 2) (by norm_num [abs_le]) (by norm_num [abs_le])]
  decide!

end Skeleton
